import Mathlib

/-!
# subnet-scanner: enumeration, ordering and the probe permit pool

A shallow embedding of `main.go` (functions `getIPsFromSubnet`, `incIP`,
`scanIPs`, `ipToInt`) together with the parts of the Go standard library
those functions call (`strings.Split`, `fmt.Sscanf` with the verb `%d` into a
`uint32`, `net.ParseCIDR`, `net.CIDRMask`, `IP.Mask`, `IPNet.Contains`,
`IP.To4`, `IP.String`, `sort.Slice`).

Conventions.
* A Go `string` is a Lean `String` (the strings of the program are valid
  UTF-8); the library loops run over its list of characters.  Where Go looks
  at bytes, a character outside ASCII is some bytes of value 128 or more,
  which every parser here refuses just as it refuses the character.
* Bytes (`byte`, `uint8`) are natural numbers kept below 256 by an explicit
  `% 256`, a `uint32` is a natural number kept below `2 ^ 32`.
* A `net.IP` and a `net.IPMask` are lists of bytes (length 4 or 16); the `nil`
  slice is the empty list.
* A loop that may run forever takes a fuel argument; `none` means that the
  fuel ran out before the loop exited.
* The library functions follow the sources of Go 1.22 (`net`, `net/netip`,
  `fmt`, `strings`); `sort.Slice` is described by its contract, see
  `SliceSorter`.  The scanner of `fmt` reads at most `2 ^ 30` characters of
  its input, a limit left out here.
* The goroutines of `scanIPs` are a step relation on an explicit state
  (`Step`, `Reachable`).
-/

deriving instance DecidableEq for Except

namespace SubnetScanner

/-! ## `strings.Split` -/

/-- The Go call `strings.Split(s, sep)` for a one-character separator: the
pieces of `s` between the occurrences of `sep` (one piece more than there are
separators, the empty string gives one empty piece). -/
def stringsSplit (sep : Char) : List Char → List (List Char)
  | [] => [[]]
  | c :: cs =>
    if c = sep then [] :: stringsSplit sep cs
    else
      match stringsSplit sep cs with
      | [] => [[c]]
      | p :: ps => (c :: p) :: ps

/-! ## `fmt.Sscanf(part, "%d", &octet)` with `octet` a `uint32` -/

/-- The white-space table of package `fmt` (`isSpace`). -/
def isSpace (r : Char) : Bool :=
  let n := r.toNat
  (0x0009 ≤ n ∧ n ≤ 0x000d) ∨ n = 0x0020 ∨ n = 0x0085 ∨ n = 0x00a0 ∨ n = 0x1680 ∨
  (0x2000 ≤ n ∧ n ≤ 0x200a) ∨ n = 0x2028 ∨ n = 0x2029 ∨ n = 0x202f ∨ n = 0x205f ∨
  n = 0x3000

/-- The scanner method `SkipSpace` as `Sscanf` runs it (newlines are not
space there): `none` is the error "unexpected newline", otherwise the input
that is left. -/
def skipSpace : List Char → Option (List Char)
  | [] => some []
  | r :: rest =>
    if r = '\r' ∧ rest.head? = some '\n' then skipSpace rest
    else if r = '\n' then none
    else if isSpace r then skipSpace rest
    else some (r :: rest)

/-- A decimal digit, the set the verb `%d` accepts (`"0123456789"`). -/
def isDecimalDigit (c : Char) : Bool := 48 ≤ c.toNat ∧ c.toNat ≤ 57

/-- The value of a string of decimal digits, as `strconv.ParseUint(tok, 10, 64)`
accumulates it (without its range check, made by the caller below). -/
def parseUint (tok : List Char) : Nat :=
  tok.foldl (fun n c => n * 10 + (c.toNat - 48)) 0

/-- The Go call `fmt.Sscanf(part, "%d", &octet)` for `octet` of type `uint32`:
skip leading space, read the longest run of decimal digits, convert it.
`some v` means that `v` was stored into `octet`; `none` is every error
(unexpected newline, end of input, "expected integer", a value over 64 or 32
bits), in which case nothing is stored.  Input after the digits is left
unread and is no error. -/
def sscanfUint32 (part : List Char) : Option Nat :=
  match skipSpace part with
  | none => none
  | some rest =>
    let tok := rest.takeWhile isDecimalDigit
    if tok = [] then none
    else
      let i := parseUint tok
      if i < 2 ^ 64 ∧ i < 2 ^ 32 then some i else none

/-! ## `ipToInt` (main.go) -/

/-- One turn of the loop of `ipToInt`: `octet` starts at zero, `Sscanf`
stores into it when it succeeds, and `result |= octet << uint(24-i*8)` is
computed on 32 bits. -/
def ipToIntStep (result : Nat) (i : Nat) (part : List Char) : Nat :=
  let octet := (sscanfUint32 part).getD 0
  result ||| ((octet <<< (24 - i * 8)) % 2 ^ 32)

/-- The loop `for i, part := range parts` of `ipToInt`, from index `i`. -/
def ipToIntLoop : List (List Char) → Nat → Nat → Nat
  | [], _, result => result
  | part :: parts, i, result => ipToIntLoop parts (i + 1) (ipToIntStep result i part)

/-- The function `ipToInt` of main.go. -/
def ipToInt (ip : String) : Nat :=
  let parts := stringsSplit '.' ip.data
  if parts.length ≠ 4 then 0 else ipToIntLoop parts 0 0

/-! ## Package `net`: addresses, masks, networks

A `net.IP` or `net.IPMask` is a list of bytes; the `nil` slice is the empty
list. -/

/-- The Go type `net.IPNet`: a network number and its mask. -/
structure IPNet where
  IP : List Nat
  Mask : List Nat
deriving DecidableEq, Repr

/-- The twelve bytes `v4InV6Prefix` that start an IPv4-mapped IPv6 address. -/
def v4InV6Prefix : List Nat := [0, 0, 0, 0, 0, 0, 0, 0, 0, 0, 0xff, 0xff]

/-- The method `IP.To4`: the 4-byte form of an IPv4 address (given in 4 or in
16 bytes), `nil` for anything else. -/
def To4 (ip : List Nat) : List Nat :=
  if ip.length = 4 then ip
  else if ip.length = 16 ∧ (ip.take 10).all (fun b => b = 0) ∧
      ip.getD 10 0 = 0xff ∧ ip.getD 11 0 = 0xff then ip.drop 12
  else []

/-- The loop of `net.CIDRMask`: `l` bytes are still to be written and `n` one
bits are still to be placed; `^byte(0xff >> n)` is `255 - 255 >>> n`. -/
def cidrMaskLoop : Nat → Nat → List Nat
  | 0, _ => []
  | l + 1, n =>
    if n ≥ 8 then 0xff :: cidrMaskLoop l (n - 8)
    else (255 - (0xff >>> n)) :: cidrMaskLoop l 0

/-- The function `net.CIDRMask(ones, bits)`: `ones` one bits followed by zero
bits, `bits` in all; `nil` when the arguments are out of range. -/
def CIDRMask (ones bits : Nat) : List Nat :=
  if bits ≠ 32 ∧ bits ≠ 128 then []
  else if ones > bits then []
  else cidrMaskLoop (bits / 8) ones

/-- The method `IP.Mask`: the byte-wise conjunction of address and mask, after
bringing a 16-byte and a 4-byte operand to the same length; `nil` when the
lengths still differ. -/
def ipMask (ip mask : List Nat) : List Nat :=
  let mask := if mask.length = 16 ∧ ip.length = 4 ∧ (mask.take 12).all (fun b => b = 0xff)
    then mask.drop 12 else mask
  let ip := if mask.length = 4 ∧ ip.length = 16 ∧ ip.take 12 = v4InV6Prefix
    then ip.drop 12 else ip
  if ip.length ≠ mask.length then []
  else List.zipWith (fun a b => a &&& b) ip mask

/-- The helper `networkNumberAndMask` of package `net`; `none` is its
`nil, nil` answer. -/
def networkNumberAndMask (n : IPNet) : Option (List Nat × List Nat) :=
  let ip4 := To4 n.IP
  if ip4 = [] ∧ n.IP.length ≠ 16 then none
  else
    let ip := if ip4 = [] then n.IP else ip4
    let m := n.Mask
    if m.length = 4 then
      if ip.length ≠ 4 then none else some (ip, m)
    else if m.length = 16 then
      if ip.length = 4 then some (ip, m.drop 12) else some (ip, m)
    else none

/-- The comparison loop of `IPNet.Contains`: no index `i` has
`nn[i]&m[i] != ip[i]&m[i]`. -/
def containsLoop : List Nat → List Nat → List Nat → Bool
  | a :: nn, b :: m, c :: ip => if a &&& b ≠ c &&& b then false else containsLoop nn m ip
  | _, _, _ => true

/-- The method `IPNet.Contains`. -/
def IPNet.Contains (n : IPNet) (ip : List Nat) : Bool :=
  match networkNumberAndMask n with
  | none => false
  | some (nn, m) =>
    let ip := if To4 ip ≠ [] then To4 ip else ip
    if ip.length ≠ nn.length then false else containsLoop nn m ip

/-! ### Text form of an address (`IP.String`) -/

/-- The character of a digit value below 16, from the table
`"0123456789abcdef"`. -/
def digitChar (x : Nat) : Char :=
  if x < 10 then Char.ofNat (48 + x) else Char.ofNat (87 + x)

/-- The function `appendDecimal` of `net/netip`: a byte in decimal, without
leading zeros. -/
def appendDecimal (x : Nat) : List Char :=
  (if x ≥ 100 then [digitChar (x / 100)] else []) ++
  (if x ≥ 10 then [digitChar (x / 10 % 10)] else []) ++
  [digitChar (x % 10)]

/-- The function `appendHex` of `net/netip`: a 16-bit value in lower-case
hexadecimal, without leading zeros. -/
def appendHex (x : Nat) : List Char :=
  (if x ≥ 0x1000 then [digitChar (x / 0x1000)] else []) ++
  (if x ≥ 0x100 then [digitChar (x / 0x100 % 16)] else []) ++
  (if x ≥ 0x10 then [digitChar (x / 0x10 % 16)] else []) ++
  [digitChar (x % 16)]

/-- The dotted-quad text of four bytes (`Addr.string4`). -/
def string4 (ip : List Nat) : List Char :=
  appendDecimal (ip.getD 0 0) ++ ('.' :: (appendDecimal (ip.getD 1 0) ++
    ('.' :: (appendDecimal (ip.getD 2 0) ++ ('.' :: appendDecimal (ip.getD 3 0))))))

/-- The 16-bit field `i` of a 16-byte address (`v6u16`). -/
def v6u16 (ip : List Nat) (i : Nat) : Nat := ip.getD (2 * i) 0 * 256 + ip.getD (2 * i + 1) 0

/-- The number of fields from `j` on that are zero, at most `k` of them
looked at (the inner loop of `appendTo6`). -/
def zeroRun (ip : List Nat) : Nat → Nat → Nat
  | 0, _ => 0
  | k + 1, j => if v6u16 ip j = 0 then zeroRun ip k (j + 1) + 1 else 0

/-- The first loop of `appendTo6`: the longest run of at least two zero fields,
as `(zeroStart, zeroEnd)`, scanning the starts `i = 8 - k, ..., 7`. -/
def zeroSpan (ip : List Nat) : Nat → Nat × Nat → Nat × Nat
  | 0, best => best
  | k + 1, best =>
    let i := 8 - (k + 1)
    let l := zeroRun ip (8 - i) i
    if l ≥ 2 ∧ l > best.2 - best.1 then zeroSpan ip k (i, i + l) else zeroSpan ip k best

/-- The second loop of `appendTo6`, from field `i` with `k` fields left. -/
def string6Loop (ip : List Nat) (zeroStart zeroEnd : Nat) : Nat → Nat → List Char
  | 0, _ => []
  | k + 1, i =>
    if i ≥ 8 then []
    else if i = zeroStart then
      ':' :: ':' ::
        (if zeroEnd ≥ 8 then []
         else appendHex (v6u16 ip zeroEnd) ++ string6Loop ip zeroStart zeroEnd k (zeroEnd + 1))
    else
      (if i > 0 then [':'] else []) ++ appendHex (v6u16 ip i) ++
        string6Loop ip zeroStart zeroEnd k (i + 1)

/-- The text of a 16-byte address without zone (`Addr.string6`): lower-case
hexadecimal fields, the longest run of zero fields written `::`. -/
def string6 (ip : List Nat) : List Char :=
  let span := zeroSpan ip 8 (255, 255)
  string6Loop ip span.1 span.2 8 0

/-- Two lower-case hexadecimal digits per byte (`hexString`). -/
def hexString (b : List Nat) : List Char :=
  b.flatMap (fun x => [digitChar (x / 16 % 16), digitChar (x % 16)])

/-- The method `IP.String`. -/
def ipString (ip : List Nat) : String :=
  if ip.length = 0 then "<nil>"
  else if ip.length ≠ 4 ∧ ip.length ≠ 16 then String.mk ('?' :: hexString ip)
  else if (To4 ip).length = 4 then String.mk (string4 (To4 ip))
  else String.mk (string6 ip)

/-! ### Parsing (`netip.ParseAddr`, `net.ParseCIDR`) -/

/-- The loop of `parseIPv4Fields` (`net/netip`) over the characters that are
left; `prev` is the character before the current one (`none` at index 0),
`val`, `pos`, `digLen` and `fields` are the variables of the Go loop.  `none`
is every parse error. -/
def parseIPv4Loop : List Char → Option Char → Nat → Nat → Nat → List Nat → Option (List Nat)
  | [], _, val, pos, _, fields =>
    if pos < 3 then none else some (fields.set 3 (val % 256))
  | c :: rest, prev, val, pos, digLen, fields =>
    if isDecimalDigit c then
      if digLen = 1 ∧ val = 0 then none
      else
        let val1 := val * 10 + (c.toNat - 48)
        if val1 > 255 then none
        else parseIPv4Loop rest (some c) val1 pos (digLen + 1) fields
    else if c = '.' then
      if prev = none ∨ rest = [] ∨ prev = some '.' then none
      else if pos = 3 then none
      else parseIPv4Loop rest (some c) 0 (pos + 1) 0 (fields.set pos (val % 256))
    else none

/-- The function `parseIPv4Fields` on a whole string: four decimal fields of
value at most 255, no empty field, no leading zero. -/
def parseIPv4Fields (s : List Char) : Option (List Nat) :=
  parseIPv4Loop s none 0 0 0 [0, 0, 0, 0]

/-- The value of a hexadecimal digit, `none` for any other character. -/
def hexVal (c : Char) : Option Nat :=
  let n := c.toNat
  if 48 ≤ n ∧ n ≤ 57 then some (n - 48)
  else if 97 ≤ n ∧ n ≤ 102 then some (n - 97 + 10)
  else if 65 ≤ n ∧ n ≤ 70 then some (n - 65 + 10)
  else none

/-- The inner loop of `parseIPv6`: read hexadecimal digits into `acc`; `none`
when there are more than four digits or the value passes 16 bits, otherwise
the number of digits, the value and the rest of the input. -/
def scanHex : List Char → Nat → Nat → Option (Nat × Nat × List Char)
  | [], off, acc => some (off, acc, [])
  | c :: cs, off, acc =>
    match hexVal c with
    | none => some (off, acc, c :: cs)
    | some d =>
      let acc1 := (acc * 16 + d) % 2 ^ 32
      if off > 3 then none
      else if acc1 > 0xffff then none
      else scanHex cs (off + 1) acc1

/-- The state in which the field loop of `parseIPv6` ends: the unread input,
the write position `i`, the position of `::` and the bytes so far. -/
structure V6State where
  rest : List Char
  i : Nat
  ellipsis : Option Nat
  ip : List Nat

/-- The field loop `for i < 16` of `parseIPv6`; the first argument bounds the
number of turns (each turn adds at least 2 to `i`). -/
def parseIPv6Loop : Nat → List Char → Nat → Option Nat → List Nat → Option V6State
  | 0, s, i, ellipsis, ip => some ⟨s, i, ellipsis, ip⟩
  | k + 1, s, i, ellipsis, ip =>
    if ¬ i < 16 then some ⟨s, i, ellipsis, ip⟩
    else
      match scanHex s 0 0 with
      | none => none
      | some (off, acc, s1) =>
        if off = 0 then none
        else if s1.head? = some '.' then
          if ellipsis = none ∧ i ≠ 12 then none
          else if i + 4 > 16 then none
          else
            match parseIPv4Fields s with
            | none => none
            | some f => some ⟨[], i + 4, ellipsis, ip.take i ++ f ++ ip.drop (i + 4)⟩
        else
          let ip1 := (ip.set i (acc / 256 % 256)).set (i + 1) (acc % 256)
          match s1 with
          | [] => some ⟨[], i + 2, ellipsis, ip1⟩
          | c :: s2 =>
            if c ≠ ':' then none
            else
              match s2 with
              | [] => none
              | c2 :: s3 =>
                if c2 = ':' then
                  if ellipsis ≠ none then none
                  else if s3 = [] then some ⟨[], i + 2, some (i + 2), ip1⟩
                  else parseIPv6Loop k s3 (i + 2) (some (i + 2)) ip1
                else parseIPv6Loop k s2 (i + 2) ellipsis ip1

/-- The function `parseIPv6` of `net/netip`: the 16 bytes and the zone, `none`
for every parse error. -/
def parseIPv6 (input : List Char) : Option (List Nat × List Char) :=
  let cut := input.span (fun c => c ≠ '%')
  let s := cut.1
  let zone := cut.2.drop 1
  if cut.2 ≠ [] ∧ zone = [] then none
  else
    let zero16 := List.replicate 16 0
    let start : Option (Option V6State) :=
      match s with
      | ':' :: ':' :: [] => some (some ⟨[], 16, some 0, zero16⟩)
      | ':' :: ':' :: s1 => some (parseIPv6Loop 8 s1 0 (some 0) zero16)
      | _ => some (parseIPv6Loop 8 s 0 none zero16)
    match start with
    | none => none
    | some none => none
    | some (some st) =>
      if s = [':', ':'] then some (zero16, zone)
      else if st.rest ≠ [] then none
      else if st.i < 16 then
        match st.ellipsis with
        | none => none
        | some e =>
          let n := 16 - st.i
          some (st.ip.take e ++ List.replicate n 0 ++ (st.ip.drop e).take (st.i - e), zone)
      else if st.ellipsis ≠ none then none
      else some (st.ip, zone)

/-- An address as `netip.ParseAddr` returns it: four bytes, or sixteen bytes
with a zone. -/
inductive Addr where
  | v4 (b : List Nat)
  | v6 (b : List Nat) (zone : List Char)
deriving DecidableEq, Repr

/-- The method `Addr.BitLen`. -/
def Addr.BitLen : Addr → Nat
  | .v4 _ => 32
  | .v6 _ _ => 128

/-- The method `Addr.Zone`. -/
def Addr.Zone : Addr → List Char
  | .v4 _ => []
  | .v6 _ z => z

/-- The method `Addr.As16`: an IPv4 address becomes IPv4-mapped. -/
def Addr.As16 : Addr → List Nat
  | .v4 b => v4InV6Prefix ++ b
  | .v6 b _ => b

/-- The function `netip.ParseAddr`: the first of the characters `.`, `:`, `%`
decides which parser runs. -/
def ParseAddr (s : List Char) : Option Addr :=
  match s.find? (fun c => c = '.' ∨ c = ':' ∨ c = '%') with
  | some c =>
    if c = '.' then (parseIPv4Fields s).map Addr.v4
    else if c = ':' then (parseIPv6 s).map (fun r => Addr.v6 r.1 r.2)
    else none
  | none => none

/-- The loop of `dtoi` (package `net`), with `big = 0xFFFFFF`: the number
read, the count of characters consumed, and whether no overflow happened. -/
def dtoiLoop : List Char → Nat → Nat → Nat × Nat × Bool
  | [], n, i => (n, i, true)
  | c :: cs, n, i =>
    if isDecimalDigit c then
      let n1 := n * 10 + (c.toNat - 48)
      if n1 ≥ 0xFFFFFF then (0xFFFFFF, i, false) else dtoiLoop cs n1 (i + 1)
    else (n, i, true)

/-- The function `dtoi`: decimal to integer; fails on overflow and when no
digit is read. -/
def dtoi (s : List Char) : Nat × Nat × Bool :=
  match dtoiLoop s 0 0 with
  | (n, i, ok) => if ¬ ok then (n, i, false) else if i = 0 then (0, 0, false) else (n, i, true)

/-- The function `net.ParseCIDR`: the address (in 16 bytes) and the network
of a string `address/length`; `none` is its `ParseError`. -/
def ParseCIDR (s : List Char) : Option (List Nat × IPNet) :=
  let cut := s.span (fun c => c ≠ '/')
  if cut.2 = [] then none
  else
    let addr := cut.1
    let mask := cut.2.drop 1
    match ParseAddr addr with
    | none => none
    | some ipAddr =>
      if ipAddr.Zone ≠ [] then none
      else
        match dtoi mask with
        | (n, i, ok) =>
          if ¬ ok ∨ i ≠ mask.length ∨ n > ipAddr.BitLen then none
          else
            let m := CIDRMask n ipAddr.BitLen
            let addr16 := ipAddr.As16
            some (addr16, ⟨ipMask addr16 m, m⟩)

/-! ## `incIP` and `getIPsFromSubnet` (main.go) -/

/-- The loop of `incIP` seen from the last byte: add one to a byte and stop
unless it wrapped to zero. -/
def incIPLoop : List Nat → List Nat
  | [] => []
  | b :: bs =>
    let b1 := (b + 1) % 256
    if b1 > 0 then b1 :: bs else b1 :: incIPLoop bs

/-- The function `incIP` of main.go: `j` runs from the last byte down. -/
def incIP (ip : List Nat) : List Nat := (incIPLoop ip.reverse).reverse

/-- The loop `for ip := ...; ipnet.Contains(ip); incIP(ip)` of
`getIPsFromSubnet` with the list `ips` collected so far; `none` when the fuel
is used up before `Contains` answers false. -/
def enumerate (ipnet : IPNet) : Nat → List Nat → List String → Option (List String)
  | 0, _, _ => none
  | fuel + 1, ip, ips =>
    if ipnet.Contains ip then enumerate ipnet fuel (incIP ip) (ips ++ [ipString ip])
    else some ips

/-- The slice expression `ips[1 : len(ips)-1]` guarded by `len(ips) > 2`. -/
def stripEnds (ips : List String) : List String :=
  if ips.length > 2 then (ips.drop 1).take (ips.length - 2) else ips

/-- The function `getIPsFromSubnet` of main.go.  `none`: the loop did not exit
within `fuel` turns; `some (.error msg)`: the error return; `some (.ok ips)`:
the list returned. -/
def getIPsFromSubnet (fuel : Nat) (subnet : String) : Option (Except String (List String)) :=
  match ParseCIDR subnet.data with
  | none => some (.error ("invalid CIDR notation: invalid CIDR address: " ++ subnet))
  | some (ip, ipnet) =>
    match enumerate ipnet fuel (ipMask ip ipnet.Mask) [] with
    | none => none
    | some ips => some (.ok (stripEnds ips))

/-! ## `sort.Slice` and `scanIPs` (main.go) -/

/-- The Go type `ScanResult` of main.go. -/
structure ScanResult where
  IP : String
  Alive : Bool
deriving DecidableEq, Repr

/-- The inner loop of `insertionSort_func` (package `sort`),
`for j := i; j > a && less(j, j-1); j-- { swap(j, j-1) }`: the element `x`
travels left past every neighbour it is less than.  The list is the part of
the slice before `x`, nearest neighbour first. -/
def insertLeft {α : Type} (less : α → α → Bool) (x : α) : List α → List α
  | [] => [x]
  | y :: ys => if less x y then y :: insertLeft less x ys else x :: y :: ys

/-- The function `insertionSort_func` of package `sort` on a whole slice: the
elements are taken from left to right and each is moved left into place. -/
def insertionSortFunc {α : Type} (less : α → α → Bool) (xs : List α) : List α :=
  (xs.foldl (fun sortedRev x => insertLeft less x sortedRev) []).reverse

/-- The library function `sort.Slice`, as far as the scanner depends on it:
the result is a rearrangement of the slice, it is in order when `less`
compares a numeric key, and a slice of at most 6 elements is sorted by plain
insertion sort (true of every release of package `sort`; the order that
longer slices give to elements with equal keys is left open, `sort.Slice`
is documented as not stable).  Insertion sort at every length is one such
sorter, see `sliceSorter_nonempty`. -/
structure SliceSorter (α : Type) where
  sort : (α → α → Bool) → List α → List α
  perm : ∀ less xs, (sort less xs).Perm xs
  sorted : ∀ (key : α → Nat) xs,
    (sort (fun a b => decide (key a < key b)) xs).Pairwise (fun a b => key a ≤ key b)
  short : ∀ less xs, xs.length ≤ 6 → sort less xs = insertionSortFunc less xs

/-- The function `scanIPs` of main.go with the prober `pingIP` as a function of
the address: every goroutine stores `ScanResult{IP: ipAddr, Alive: alive}` in
the slot of its own index, and after `wg.Wait()` the slice is sorted with
`ipToInt(results[i].IP) < ipToInt(results[j].IP)`.  (The goroutines, the
channel `sem` and the wait group are the step relation `Step` below, whose
final states hold exactly the slice used here, see `results_after_wait`.) -/
def scanIPs (S : SliceSorter ScanResult) (pingIP : String → Bool) (ips : List String) :
    List ScanResult :=
  let results := ips.map (fun ipAddr => ScanResult.mk ipAddr (pingIP ipAddr))
  S.sort (fun a b => decide (ipToInt a.IP < ipToInt b.IP)) results

/-! ## The goroutines of `scanIPs` as a step relation -/

/-- Where one goroutine of `scanIPs` stands in its body. -/
inductive Phase where
  /-- Launched, blocked on or about to do `sem <- struct{}{}`. -/
  | waiting
  /-- The send succeeded, `pingIP` is running. -/
  | probing
  /-- The call `pingIP` has returned `alive`, the slot is not yet written. -/
  | probed (alive : Bool)
  /-- After `results[idx] = ...`, before the deferred `<-sem`. -/
  | written
  /-- The call `pingIP` panicked; the deferred calls are about to run. -/
  | panicking
  /-- After the deferred `<-sem`, before the deferred `wg.Done()`. -/
  | released
  /-- After `<-sem` on the panic path, before `wg.Done()`. -/
  | releasedPanic
  /-- The goroutine has returned. -/
  | finished
  /-- The goroutine has ended in a panic. -/
  | crashed
deriving DecidableEq, Repr

/-- The goroutine has sent on `sem` and not yet received from it: its probe is
in flight. -/
def Phase.inFlight : Phase → Bool
  | .probing | .probed _ | .written | .panicking => true
  | _ => false

/-- The goroutine has left its body (by return or by panic). -/
def Phase.exited : Phase → Bool
  | .finished | .crashed => true
  | _ => false

/-- The goroutine has not yet run its deferred `wg.Done()`. -/
def Phase.pending : Phase → Bool
  | .finished | .crashed => false
  | _ => true

/-- The capacity of the channel `sem`, `make(chan struct{}, 50)`. -/
def semCapacity : Nat := 50

/-- The state of one call of `scanIPs`: the goroutines launched so far (the
one of index `idx` at position `idx`), the number of values in the buffer of
`sem`, the slice `results`, and the counter of the wait group. -/
structure ScanState where
  threads : List Phase
  sem : Nat
  results : List ScanResult
  wg : Nat
deriving DecidableEq, Repr

/-- The state in which the loop `for i, ip := range ips` starts:
`results := make([]ScanResult, len(ips))`, an empty channel, no goroutine. -/
def ScanState.init (ips : List String) : ScanState :=
  ⟨[], 0, List.replicate ips.length ⟨"", false⟩, 0⟩

/-- The number of probes in flight. -/
def ScanState.inFlight (s : ScanState) : Nat := s.threads.countP Phase.inFlight

/-- One atomic step of the goroutines and of the launching loop. -/
inductive Step (pingIP : String → Bool) (ips : List String) : ScanState → ScanState → Prop where
  /-- The loop: `wg.Add(1); go func(idx, ipAddr) {...}(i, ip)`. -/
  | spawn (s : ScanState) (h : s.threads.length < ips.length) :
      Step pingIP ips s { s with threads := s.threads ++ [Phase.waiting], wg := s.wg + 1 }
  /-- The send `sem <- struct{}{}`, possible only while the buffer is not full. -/
  | acquire (s : ScanState) (i : Nat) (h : s.threads[i]? = some Phase.waiting)
      (room : s.sem < semCapacity) :
      Step pingIP ips s { s with threads := s.threads.set i Phase.probing, sem := s.sem + 1 }
  /-- The call `pingIP(ipAddr)` returns. -/
  | probe (s : ScanState) (i : Nat) (h : s.threads[i]? = some Phase.probing) :
      Step pingIP ips s
        { s with threads := s.threads.set i (Phase.probed (pingIP (ips.getD i ""))) }
  /-- The call `pingIP(ipAddr)` panics instead. -/
  | fail (s : ScanState) (i : Nat) (h : s.threads[i]? = some Phase.probing) :
      Step pingIP ips s { s with threads := s.threads.set i Phase.panicking }
  /-- The store `results[idx] = ScanResult{IP: ipAddr, Alive: alive}`. -/
  | write (s : ScanState) (i : Nat) (alive : Bool)
      (h : s.threads[i]? = some (Phase.probed alive)) :
      Step pingIP ips s
        { s with threads := s.threads.set i Phase.written,
                 results := s.results.set i ⟨ips.getD i "", alive⟩ }
  /-- The deferred receive `<-sem` on the normal return. -/
  | release (s : ScanState) (i : Nat) (h : s.threads[i]? = some Phase.written)
      (nonempty : 0 < s.sem) :
      Step pingIP ips s { s with threads := s.threads.set i Phase.released, sem := s.sem - 1 }
  /-- The deferred receive `<-sem` while the goroutine is panicking. -/
  | releasePanic (s : ScanState) (i : Nat) (h : s.threads[i]? = some Phase.panicking)
      (nonempty : 0 < s.sem) :
      Step pingIP ips s
        { s with threads := s.threads.set i Phase.releasedPanic, sem := s.sem - 1 }
  /-- The deferred `wg.Done()` on the normal return. -/
  | done (s : ScanState) (i : Nat) (h : s.threads[i]? = some Phase.released) :
      Step pingIP ips s { s with threads := s.threads.set i Phase.finished, wg := s.wg - 1 }
  /-- The deferred `wg.Done()` while the goroutine is panicking. -/
  | donePanic (s : ScanState) (i : Nat) (h : s.threads[i]? = some Phase.releasedPanic) :
      Step pingIP ips s { s with threads := s.threads.set i Phase.crashed, wg := s.wg - 1 }

/-- The states a call of `scanIPs` can be in, under any interleaving. -/
inductive Reachable (pingIP : String → Bool) (ips : List String) : ScanState → Prop where
  | init : Reachable pingIP ips (ScanState.init ips)
  | step {s t : ScanState} : Reachable pingIP ips s → Step pingIP ips s t →
      Reachable pingIP ips t

/-- The call `wg.Wait()` can return: the loop has launched every goroutine and
the counter is back to zero. -/
def ScanState.waitReturns (ips : List String) (s : ScanState) : Prop :=
  s.threads.length = ips.length ∧ s.wg = 0

/-! ## Words of the specification -/

/-- A string in the form the specification calls dotted-quad-plus-length IPv4
CIDR, with its four octets and its length `plen`: four decimal octets of value
at most 255 without leading zeros, separated by dots, then a slash and a
non-empty string `m` of decimal digits whose value is at most 32 (the length
may carry leading zeros, as in "10.0.0.0/024"; `net.ParseCIDR` reads it so).
By `ParseCIDR_v4` and `ParseCIDR_sound` these are exactly the strings without
a colon that `net.ParseCIDR` accepts. -/
def IsIPv4CIDR (s : String) (a b c d plen : Nat) : Prop :=
  a < 256 ∧ b < 256 ∧ c < 256 ∧ d < 256 ∧ plen ≤ 32 ∧
  ∃ m : List Char, m ≠ [] ∧ (∀ ch ∈ m, isDecimalDigit ch = true) ∧ parseUint m = plen ∧
    s.data = string4 [a, b, c, d] ++ '/' :: m

/-- The 32-bit number of four octets, octet 0 in the high byte. -/
def packOctets (a b c d : Nat) : Nat := a * 2 ^ 24 + b * 2 ^ 16 + c * 2 ^ 8 + d

/-- The four bytes of a 32-bit number, high byte first. -/
def unpackOctets (v : Nat) : List Nat :=
  [v / 2 ^ 24 % 256, v / 2 ^ 16 % 256, v / 2 ^ 8 % 256, v % 256]

/-- Modelled from the spec: the way back of the round trip "dotted-quad to
32-bit integer to dotted-quad", which main.go does not contain; the integer is
unpacked high byte first and written as `IP.String` writes four bytes. -/
def intToIP (v : Nat) : String := ipString (unpackOctets v)

/-! ## Further words of the specification and of the proofs -/

/-- The text that `IP.String` gives to the 4-byte address with number `v`. -/
def render (v : Nat) : String := ipString (unpackOctets v)

/-- The number of the network address of the block of `v` with `plen` leading
network bits: the host bits cleared. -/
def networkOf (v plen : Nat) : Nat := v / 2 ^ (32 - plen) * 2 ^ (32 - plen)

/-- The number of the directed broadcast address of that block: the host bits
all set. -/
def broadcastOf (v plen : Nat) : Nat := networkOf v plen + 2 ^ (32 - plen) - 1

/-- The stub prober of the scenario: only 192.168.1.1 and 192.168.1.3 answer. -/
def stubProber (ip : String) : Bool := ip = "192.168.1.1" ∨ ip = "192.168.1.3"

/-- What holds in every reachable state of `scanIPs`. -/
structure ScanInv (pingIP : String → Bool) (ips : List String) (s : ScanState) : Prop where
  sem_eq : s.sem = s.threads.countP Phase.inFlight
  sem_le : s.sem ≤ semCapacity
  wg_eq : s.wg = s.threads.countP Phase.pending
  launched : s.threads.length ≤ ips.length
  slots : s.results.length = ips.length
  verdict : ∀ i alive, s.threads[i]? = some (Phase.probed alive) →
    alive = pingIP (ips.getD i "")
  stored : ∀ i, (s.threads[i]? = some Phase.written ∨ s.threads[i]? = some Phase.released ∨
    s.threads[i]? = some Phase.finished) →
    s.results[i]? = some (ScanResult.mk (ips.getD i "") (pingIP (ips.getD i "")))

/-- A list of 51 addresses, one more than the channel `sem` has room for. -/
def fiftyOne : List String := List.replicate 51 "10.0.0.1"

/-- The state in which all 51 goroutines are launched, 50 of them are probing
and the last one waits to send on `sem`. -/
def fullState : ScanState :=
  ⟨List.replicate 50 Phase.probing ++ [Phase.waiting], 50, List.replicate 51 ⟨"", false⟩, 51⟩

/-- The text of the completed fields of a dotted quad, each followed by its dot. -/
def joinFields (completed : List Nat) : List Char :=
  completed.flatMap (fun x => appendDecimal x ++ ['.'])

/-- The state of the loop of `parseIPv4Fields` after the characters `pre`. -/
structure V4Inv (pre : List Char) (prev : Option Char) (val pos digLen : Nat)
    (completed : List Nat) : Prop where
  len : completed.length = pos
  pos_le : pos ≤ 3
  bytes : ∀ x ∈ completed, x < 256
  val_le : val ≤ 255
  fresh : digLen = 0 → val = 0 ∧ pre = joinFields completed ∧ (prev = none ∨ prev = some '.')
  inside : 0 < digLen → pre = joinFields completed ++ appendDecimal val ∧ prev ≠ none ∧
    prev ≠ some '.' ∧ (val = 0 → digLen = 1)

/-- A string in the form the specification calls a well-formed dotted-quad
address, with its four octets: four decimal octets of value at most 255,
written without leading zeros and separated by dots. -/
def IsDottedQuad (s : String) (a b c d : Nat) : Prop :=
  a < 256 ∧ b < 256 ∧ c < 256 ∧ d < 256 ∧ s.data = string4 [a, b, c, d]

/-- The value that one component contributes in `ipToInt`: what `Sscanf`
stored, or the zero the variable `octet` started with. -/
def octetOf (part : List Char) : Nat := (sscanfUint32 part).getD 0

/-! ## Lemmas: splitting and scanning the text of an address -/

theorem stringsSplit_noSep (sep : Char) (p : List Char) (hp : sep ∉ p) :
    stringsSplit sep p = [p] := by
  induction p with
  | nil => simp [stringsSplit]
  | cons c cs ih =>
    simp only [List.mem_cons, not_or] at hp
    have hc : c ≠ sep := fun h => hp.1 h.symm
    simp [stringsSplit, hc, ih hp.2]

theorem stringsSplit_append (sep : Char) (p rest : List Char) (hp : sep ∉ p) :
    stringsSplit sep (p ++ sep :: rest) = p :: stringsSplit sep rest := by
  induction p with
  | nil => simp [stringsSplit]
  | cons c cs ih =>
    simp only [List.mem_cons, not_or] at hp
    have hc : c ≠ sep := fun h => hp.1 h.symm
    simp [stringsSplit, hc, ih hp.2]

set_option maxRecDepth 100000 in
theorem appendDecimal_noDot : ∀ x < 256, '.' ∉ appendDecimal x := by decide

set_option maxRecDepth 100000 in
theorem sscanf_appendDecimal : ∀ x < 256, sscanfUint32 (appendDecimal x) = some x := by decide

theorem ipString_four (a b c d : Nat) :
    ipString [a, b, c, d] = String.mk (string4 [a, b, c, d]) := by
  simp [ipString, To4]

theorem string4_split (a b c d : Nat) (ha : a < 256) (hb : b < 256) (hc : c < 256)
    (hd : d < 256) :
    stringsSplit '.' (string4 [a, b, c, d]) =
      [appendDecimal a, appendDecimal b, appendDecimal c, appendDecimal d] := by
  simp only [string4, List.getD_cons_zero, List.getD_cons_succ]
  rw [stringsSplit_append _ _ _ (appendDecimal_noDot a ha),
    stringsSplit_append _ _ _ (appendDecimal_noDot b hb),
    stringsSplit_append _ _ _ (appendDecimal_noDot c hc),
    stringsSplit_noSep _ _ (appendDecimal_noDot d hd)]

theorem or_pack (a b c d : Nat) (hb : b < 256) (hc : c < 256) (hd : d < 256)
    (ha : a < 256) :
    (((0 ||| (a <<< 24) % 2 ^ 32) ||| (b <<< 16) % 2 ^ 32) ||| (c <<< 8) % 2 ^ 32) |||
      (d <<< 0) % 2 ^ 32 = packOctets a b c d := by
  have e1 : (a <<< 24) % 2 ^ 32 = 2 ^ 24 * a := by
    rw [Nat.shiftLeft_eq, Nat.mod_eq_of_lt (by omega)]; ring
  have e2 : (b <<< 16) % 2 ^ 32 = 2 ^ 16 * b := by
    rw [Nat.shiftLeft_eq, Nat.mod_eq_of_lt (by omega)]; ring
  have e3 : (c <<< 8) % 2 ^ 32 = 2 ^ 8 * c := by
    rw [Nat.shiftLeft_eq, Nat.mod_eq_of_lt (by omega)]; ring
  have e4 : (d <<< 0) % 2 ^ 32 = d := by
    rw [Nat.shiftLeft_eq, Nat.mod_eq_of_lt (by omega)]; ring
  rw [e1, e2, e3, e4, Nat.zero_or]
  rw [← Nat.mul_add_lt_is_or (by omega : 2 ^ 16 * b < 2 ^ 24)]
  have s1 : 2 ^ 24 * a + 2 ^ 16 * b = 2 ^ 16 * (2 ^ 8 * a + b) := by ring
  rw [s1, ← Nat.mul_add_lt_is_or (by omega : 2 ^ 8 * c < 2 ^ 16)]
  have s2 : 2 ^ 16 * (2 ^ 8 * a + b) + 2 ^ 8 * c = 2 ^ 8 * (2 ^ 16 * a + 2 ^ 8 * b + c) := by
    ring
  rw [s2, ← Nat.mul_add_lt_is_or (by omega : d < 2 ^ 8)]
  unfold packOctets
  ring

theorem ipToInt_string4 (a b c d : Nat) (ha : a < 256) (hb : b < 256) (hc : c < 256)
    (hd : d < 256) :
    ipToInt (String.mk (string4 [a, b, c, d])) = packOctets a b c d := by
  unfold ipToInt
  simp only [string4_split a b c d ha hb hc hd]
  simp only [List.length_cons, List.length_nil, ne_eq, not_true_eq_false, if_false,
    ipToIntLoop, ipToIntStep, sscanf_appendDecimal a ha, sscanf_appendDecimal b hb,
    sscanf_appendDecimal c hc, sscanf_appendDecimal d hd, Option.getD_some]
  exact or_pack a b c d hb hc hd ha

theorem unpack_pack (a b c d : Nat) (ha : a < 256) (hb : b < 256) (hc : c < 256)
    (hd : d < 256) : unpackOctets (packOctets a b c d) = [a, b, c, d] := by
  unfold unpackOctets packOctets
  have h1 : (a * 2 ^ 24 + b * 2 ^ 16 + c * 2 ^ 8 + d) / 2 ^ 24 % 256 = a := by omega
  have h2 : (a * 2 ^ 24 + b * 2 ^ 16 + c * 2 ^ 8 + d) / 2 ^ 16 % 256 = b := by omega
  have h3 : (a * 2 ^ 24 + b * 2 ^ 16 + c * 2 ^ 8 + d) / 2 ^ 8 % 256 = c := by omega
  have h4 : (a * 2 ^ 24 + b * 2 ^ 16 + c * 2 ^ 8 + d) % 256 = d := by omega
  rw [h1, h2, h3, h4]

theorem pack_unpack (v : Nat) (hv : v < 2 ^ 32) :
    packOctets (v / 2 ^ 24 % 256) (v / 2 ^ 16 % 256) (v / 2 ^ 8 % 256) (v % 256) = v := by
  unfold packOctets
  omega

theorem ipToInt_unpack (v : Nat) (hv : v < 2 ^ 32) : ipToInt (ipString (unpackOctets v)) = v := by
  unfold unpackOctets
  rw [ipString_four, ipToInt_string4 _ _ _ _ (Nat.mod_lt _ (by norm_num))
    (Nat.mod_lt _ (by norm_num)) (Nat.mod_lt _ (by norm_num)) (Nat.mod_lt _ (by norm_num))]
  exact pack_unpack v hv

/-! ## Lemmas: `incIP`, masks and `Contains` on 4-byte addresses -/

theorem incIP_four (a b c d : Nat) :
    incIP [a, b, c, d] =
      if (d + 1) % 256 > 0 then [a, b, c, (d + 1) % 256]
      else if (c + 1) % 256 > 0 then [a, b, (c + 1) % 256, (d + 1) % 256]
      else if (b + 1) % 256 > 0 then [a, (b + 1) % 256, (c + 1) % 256, (d + 1) % 256]
      else [(a + 1) % 256, (b + 1) % 256, (c + 1) % 256, (d + 1) % 256] := by
  simp only [incIP, List.reverse_cons, List.reverse_nil, List.nil_append, List.cons_append,
    incIPLoop]
  split_ifs <;> simp

theorem incIP_pack (a b c d : Nat) (ha : a < 256) (hb : b < 256) (hc : c < 256)
    (hd : d < 256) :
    incIP [a, b, c, d] = unpackOctets ((packOctets a b c d + 1) % 2 ^ 32) := by
  rw [incIP_four]
  by_cases h1 : d < 255
  · have e : (packOctets a b c d + 1) % 2 ^ 32 = packOctets a b c (d + 1) := by
      unfold packOctets; omega
    rw [e, unpack_pack a b c (d + 1) ha hb hc (by omega)]
    have : (d + 1) % 256 = d + 1 := by omega
    simp [this]
  have hd' : d = 255 := by omega
  subst hd'
  by_cases h2 : c < 255
  · have e : (packOctets a b c 255 + 1) % 2 ^ 32 = packOctets a b (c + 1) 0 := by
      unfold packOctets; omega
    rw [e, unpack_pack a b (c + 1) 0 ha hb (by omega) (by omega)]
    have : (c + 1) % 256 = c + 1 := by omega
    simp [this]
  have hc' : c = 255 := by omega
  subst hc'
  by_cases h3 : b < 255
  · have e : (packOctets a b 255 255 + 1) % 2 ^ 32 = packOctets a (b + 1) 0 0 := by
      unfold packOctets; omega
    rw [e, unpack_pack a (b + 1) 0 0 ha (by omega) (by omega) (by omega)]
    have : (b + 1) % 256 = b + 1 := by omega
    simp [this]
  have hb' : b = 255 := by omega
  subst hb'
  by_cases h4 : a < 255
  · have e : (packOctets a 255 255 255 + 1) % 2 ^ 32 = packOctets (a + 1) 0 0 0 := by
      unfold packOctets; omega
    rw [e, unpack_pack (a + 1) 0 0 0 (by omega) (by omega) (by omega) (by omega)]
    have : (a + 1) % 256 = a + 1 := by omega
    simp [this]
  have ha' : a = 255 := by omega
  subst ha'
  decide

theorem incIP_unpack (v : Nat) (hv : v < 2 ^ 32) :
    incIP (unpackOctets v) = unpackOctets ((v + 1) % 2 ^ 32) := by
  have h := incIP_pack (v / 2 ^ 24 % 256) (v / 2 ^ 16 % 256) (v / 2 ^ 8 % 256) (v % 256)
    (Nat.mod_lt _ (by norm_num)) (Nat.mod_lt _ (by norm_num)) (Nat.mod_lt _ (by norm_num))
    (Nat.mod_lt _ (by norm_num))
  rw [pack_unpack v hv] at h
  exact h

set_option maxRecDepth 100000 in
theorem land_128 : ∀ x < 256, x &&& 128 = x / 128 * 128 := by decide
set_option maxRecDepth 100000 in
theorem land_192 : ∀ x < 256, x &&& 192 = x / 64 * 64 := by decide
set_option maxRecDepth 100000 in
theorem land_224 : ∀ x < 256, x &&& 224 = x / 32 * 32 := by decide
set_option maxRecDepth 100000 in
theorem land_240 : ∀ x < 256, x &&& 240 = x / 16 * 16 := by decide
set_option maxRecDepth 100000 in
theorem land_248 : ∀ x < 256, x &&& 248 = x / 8 * 8 := by decide
set_option maxRecDepth 100000 in
theorem land_252 : ∀ x < 256, x &&& 252 = x / 4 * 4 := by decide
set_option maxRecDepth 100000 in
theorem land_254 : ∀ x < 256, x &&& 254 = x / 2 * 2 := by decide
set_option maxRecDepth 100000 in
theorem land_255 : ∀ x < 256, x &&& 255 = x := by decide

set_option maxHeartbeats 4000000 in
theorem land_mask_four (a b c d p : Nat) (ha : a < 256) (hb : b < 256) (hc : c < 256)
    (hd : d < 256) (hp : p ≤ 32) :
    List.zipWith (fun x y => x &&& y) [a, b, c, d] (CIDRMask p 32) =
      unpackOctets (packOctets a b c d / 2 ^ (32 - p) * 2 ^ (32 - p)) := by
  interval_cases p <;>
    simp only [CIDRMask, cidrMaskLoop, unpackOctets, packOctets, List.zipWith_cons_cons,
      List.zipWith_nil_right, List.zipWith_nil_left,
      Nat.reduceLT, Nat.reducePow, Nat.reduceSub, Nat.reduceShiftRight, Nat.reduceDiv,
      Nat.reduceLeDiff, if_true, if_false, ne_eq, not_true_eq_false, false_and, and_false,
      ge_iff_le, gt_iff_lt, Nat.lt_irrefl, Nat.and_zero, 
      land_128 a ha, land_192 a ha, land_224 a ha, land_240 a ha, land_248 a ha, land_252 a ha,
      land_254 a ha, land_255 a ha,
      land_128 b hb, land_192 b hb, land_224 b hb, land_240 b hb, land_248 b hb, land_252 b hb,
      land_254 b hb, land_255 b hb,
      land_128 c hc, land_192 c hc, land_224 c hc, land_240 c hc, land_248 c hc, land_252 c hc,
      land_254 c hc, land_255 c hc,
      land_128 d hd, land_192 d hd, land_224 d hd, land_240 d hd, land_248 d hd, land_252 d hd,
      land_254 d hd, land_255 d hd,
      List.cons.injEq, and_true, Nat.reduceEqDiff] <;>
    refine ⟨?_, ?_, ?_, ?_⟩ <;> omega

theorem cidrMaskLoop_length (l n : Nat) : (cidrMaskLoop l n).length = l := by
  induction l generalizing n with
  | zero => simp [cidrMaskLoop]
  | succ l ih =>
    unfold cidrMaskLoop
    split_ifs <;> simp [ih]

theorem CIDRMask_length (p : Nat) (hp : p ≤ 32) : (CIDRMask p 32).length = 4 := by
  have : ¬ p > 32 := by omega
  simp [CIDRMask, this, cidrMaskLoop_length]

theorem unpackOctets_length (v : Nat) : (unpackOctets v).length = 4 := by
  simp [unpackOctets]

theorem To4_unpack (v : Nat) : To4 (unpackOctets v) = unpackOctets v := by
  simp [To4, unpackOctets]

theorem unpackOctets_inj (u v : Nat) (hu : u < 2 ^ 32) (hv : v < 2 ^ 32)
    (h : unpackOctets u = unpackOctets v) : u = v := by
  have e1 := pack_unpack u hu
  have e2 := pack_unpack v hv
  simp only [unpackOctets, List.cons.injEq, and_true] at h
  obtain ⟨h1, h2, h3, h4⟩ := h
  rw [h1, h2, h3, h4, e2] at e1
  exact e1.symm

theorem unpack_land_mask (v p : Nat) (hv : v < 2 ^ 32) (hp : p ≤ 32) :
    List.zipWith (fun x y => x &&& y) (unpackOctets v) (CIDRMask p 32) =
      unpackOctets (v / 2 ^ (32 - p) * 2 ^ (32 - p)) := by
  have h := land_mask_four (v / 2 ^ 24 % 256) (v / 2 ^ 16 % 256) (v / 2 ^ 8 % 256) (v % 256) p
    (Nat.mod_lt _ (by norm_num)) (Nat.mod_lt _ (by norm_num)) (Nat.mod_lt _ (by norm_num))
    (Nat.mod_lt _ (by norm_num)) hp
  rw [pack_unpack v hv] at h
  exact h

theorem containsLoop_iff (nn m ip : List Nat) (h1 : nn.length = m.length)
    (h2 : ip.length = m.length) :
    containsLoop nn m ip = true ↔
      List.zipWith (fun x y => x &&& y) nn m = List.zipWith (fun x y => x &&& y) ip m := by
  induction m generalizing nn ip with
  | nil =>
    cases nn <;> cases ip <;> simp_all [containsLoop]
  | cons b m ih =>
    cases nn with
    | nil => simp at h1
    | cons a nn =>
      cases ip with
      | nil => simp at h2
      | cons c ip =>
        simp only [List.length_cons, add_left_inj] at h1 h2
        simp only [containsLoop, List.zipWith_cons_cons, List.cons.injEq]
        by_cases hab : a &&& b = c &&& b
        · simp [hab, ih nn ip h1 h2]
        · simp [hab]

theorem mask_lt (v h : Nat) (hv : v < 2 ^ 32) : v / 2 ^ h * 2 ^ h < 2 ^ 32 :=
  lt_of_le_of_lt (Nat.div_mul_le_self v (2 ^ h)) hv

theorem contains_v4 (N v p : Nat) (hN : N < 2 ^ 32) (hv : v < 2 ^ 32) (hp : p ≤ 32) :
    (IPNet.mk (unpackOctets N) (CIDRMask p 32)).Contains (unpackOctets v) =
      decide (N / 2 ^ (32 - p) = v / 2 ^ (32 - p)) := by
  have hl := CIDRMask_length p hp
  have hne : unpackOctets v ≠ [] := by simp [unpackOctets]
  have hne2 : unpackOctets N ≠ [] := by simp [unpackOctets]
  simp only [IPNet.Contains, networkNumberAndMask, To4_unpack, hl, hne, hne2,
    unpackOctets_length, ne_eq, not_true_eq_false, not_false_eq_true, if_true, if_false,
    false_and]
  rw [Bool.eq_iff_iff, containsLoop_iff _ _ _ (by simp [hl, unpackOctets_length])
    (by simp [hl, unpackOctets_length]), unpack_land_mask N p hN hp, unpack_land_mask v p hv hp]
  simp only [decide_eq_true_eq]
  constructor
  · intro h
    have := unpackOctets_inj _ _ (mask_lt N _ hN) (mask_lt v _ hv) h
    exact Nat.eq_of_mul_eq_mul_right (Nat.two_pow_pos _) this
  · intro h
    rw [h]

theorem ipMask_v4 (a b c d p : Nat) (ha : a < 256) (hb : b < 256) (hc : c < 256)
    (hd : d < 256) (hp : p ≤ 32) :
    ipMask (v4InV6Prefix ++ [a, b, c, d]) (CIDRMask p 32) =
      unpackOctets (packOctets a b c d / 2 ^ (32 - p) * 2 ^ (32 - p)) := by
  have hl := CIDRMask_length p hp
  rw [← land_mask_four a b c d p ha hb hc hd hp]
  simp [ipMask, hl, v4InV6Prefix]

/-! ## Lemmas: the parsers accept the text of an IPv4 CIDR -/

theorem digitChar_isDigit : ∀ k < 10, isDecimalDigit (digitChar k) = true := by decide

theorem digitChar_value : ∀ k < 10, (digitChar k).toNat - 48 = k := by decide

theorem digitChar_ne_dot : ∀ k < 10, digitChar k ≠ '.' := by decide

theorem loop_digit (k : Nat) (hk : k < 10) (rest : List Char) (prev : Option Char)
    (val pos digLen : Nat) (fields : List Nat) (h1 : ¬ (digLen = 1 ∧ val = 0))
    (h2 : val * 10 + k ≤ 255) :
    parseIPv4Loop (digitChar k :: rest) prev val pos digLen fields =
      parseIPv4Loop rest (some (digitChar k)) (val * 10 + k) pos (digLen + 1) fields := by
  have h3 : ¬ (val * 10 + k > 255) := by omega
  simp only [parseIPv4Loop, digitChar_isDigit k hk, digitChar_value k hk, h1, h3, if_true,
    if_false]

theorem loop_dot (c : Char) (rest : List Char) (val pos digLen : Nat) (fields : List Nat)
    (hc : c ≠ '.') (hr : rest ≠ []) (hpos : pos < 3) :
    parseIPv4Loop ('.' :: rest) (some c) val pos digLen fields =
      parseIPv4Loop rest (some '.') 0 (pos + 1) 0 (fields.set pos (val % 256)) := by
  have h1 : isDecimalDigit '.' = false := by decide
  have h3 : pos ≠ 3 := by omega
  simp [parseIPv4Loop, h1, hr, hc, h3]

theorem loop_octet (x : Nat) (hx : x < 256) (rest : List Char) (prev : Option Char)
    (pos : Nat) (fields : List Nat) :
    parseIPv4Loop (appendDecimal x ++ rest) prev 0 pos 0 fields =
      parseIPv4Loop rest (some (digitChar (x % 10))) x pos (appendDecimal x).length fields := by
  unfold appendDecimal
  by_cases h100 : x ≥ 100
  · have h10 : x ≥ 10 := by omega
    simp only [h100, h10, if_true, List.cons_append, List.nil_append, List.length_cons,
      List.length_nil]
    rw [loop_digit (x / 100) (by omega) _ _ _ _ _ _ (by omega) (by omega),
      loop_digit (x / 10 % 10) (by omega) _ _ _ _ _ _ (by omega) (by omega),
      loop_digit (x % 10) (by omega) _ _ _ _ _ _ (by omega) (by omega)]
    have : ((0 * 10 + x / 100) * 10 + x / 10 % 10) * 10 + x % 10 = x := by omega
    rw [this]
  · by_cases h10 : x ≥ 10
    · simp only [h100, h10, if_true, if_false, List.cons_append, List.nil_append,
        List.length_cons, List.length_nil]
      rw [loop_digit (x / 10 % 10) (by omega) _ _ _ _ _ _ (by omega) (by omega),
        loop_digit (x % 10) (by omega) _ _ _ _ _ _ (by omega) (by omega)]
      have : (0 * 10 + x / 10 % 10) * 10 + x % 10 = x := by omega
      rw [this]
    · simp only [h100, h10, if_false, List.cons_append, List.nil_append,
        List.length_cons, List.length_nil]
      rw [loop_digit (x % 10) (by omega) _ _ _ _ _ _ (by omega) (by omega)]
      have : 0 * 10 + x % 10 = x := by omega
      rw [this]

theorem appendDecimal_ne_nil (x : Nat) : appendDecimal x ≠ [] := by
  simp [appendDecimal]

theorem parseIPv4Fields_string4 (a b c d : Nat) (ha : a < 256) (hb : b < 256) (hc : c < 256)
    (hd : d < 256) : parseIPv4Fields (string4 [a, b, c, d]) = some [a, b, c, d] := by
  simp only [parseIPv4Fields, string4, List.getD_cons_zero, List.getD_cons_succ]
  rw [loop_octet a ha, loop_dot _ _ _ _ _ _ (digitChar_ne_dot _ (by omega)) (by simp [appendDecimal_ne_nil]) (by norm_num),
    loop_octet b hb, loop_dot _ _ _ _ _ _ (digitChar_ne_dot _ (by omega)) (by simp [appendDecimal_ne_nil]) (by norm_num),
    loop_octet c hc, loop_dot _ _ _ _ _ _ (digitChar_ne_dot _ (by omega)) (by simp [appendDecimal_ne_nil]) (by norm_num)]
  have e := loop_octet d hd [] (some '.') 3 ((([0, 0, 0, 0] : List Nat).set 0 (a % 256)).set 1 (b % 256) |>.set 2 (c % 256))
  rw [List.append_nil] at e
  rw [e]
  simp [parseIPv4Loop, Nat.mod_eq_of_lt ha, Nat.mod_eq_of_lt hb, Nat.mod_eq_of_lt hc,
    Nat.mod_eq_of_lt hd]

theorem span_append_stop {α : Type} (q : α → Bool) (pre : List α) (x : α) (rest : List α)
    (hpre : ∀ c ∈ pre, q c = true) (hx : q x = false) :
    (pre ++ x :: rest).span q = (pre, x :: rest) := by
  rw [List.span_eq_take_drop]
  induction pre with
  | nil => simp [List.takeWhile, List.dropWhile, hx]
  | cons c cs ih =>
    have hc : q c = true := hpre c (List.mem_cons_self _ _)
    have := ih (fun y hy => hpre y (List.mem_cons_of_mem _ hy))
    simp only [Prod.mk.injEq] at this
    simp [List.takeWhile, List.dropWhile, hc, this.1, this.2]

set_option maxRecDepth 100000 in
theorem appendDecimal_plain : ∀ x < 256, ∀ ch ∈ appendDecimal x,
    isDecimalDigit ch = true := by decide

theorem digit_not_special (ch : Char) (h : isDecimalDigit ch = true) :
    ch ≠ '.' ∧ ch ≠ ':' ∧ ch ≠ '%' ∧ ch ≠ '/' := by
  refine ⟨?_, ?_, ?_, ?_⟩ <;> · rintro rfl; revert h; decide

theorem string4_noSlash (a b c d : Nat) (ha : a < 256) (hb : b < 256) (hc : c < 256)
    (hd : d < 256) : ∀ ch ∈ string4 [a, b, c, d], decide (ch ≠ '/') = true := by
  intro ch hch
  simp only [string4, List.getD_cons_zero, List.getD_cons_succ, List.mem_append,
    List.mem_cons] at hch
  simp only [ne_eq, decide_not, Bool.not_eq_true', decide_eq_false_iff_not]
  have hdot : ('.' : Char) ≠ '/' := by decide
  rcases hch with h | h | h | h | h | h | h
  · exact (digit_not_special ch (appendDecimal_plain a ha ch h)).2.2.2
  · rw [h]; exact hdot
  · exact (digit_not_special ch (appendDecimal_plain b hb ch h)).2.2.2
  · rw [h]; exact hdot
  · exact (digit_not_special ch (appendDecimal_plain c hc ch h)).2.2.2
  · rw [h]; exact hdot
  · exact (digit_not_special ch (appendDecimal_plain d hd ch h)).2.2.2

theorem find_append_stop {α : Type} (q : α → Bool) (pre : List α) (x : α) (rest : List α)
    (hpre : ∀ c ∈ pre, q c = false) (hx : q x = true) :
    (pre ++ x :: rest).find? q = some x := by
  induction pre with
  | nil => simp [hx]
  | cons c cs ih =>
    have hc : q c = false := hpre c (List.mem_cons_self _ _)
    have := ih (fun y hy => hpre y (List.mem_cons_of_mem _ hy))
    simp [List.find?_cons, hc, this]

theorem ParseAddr_string4 (a b c d : Nat) (ha : a < 256) (hb : b < 256) (hc : c < 256)
    (hd : d < 256) : ParseAddr (string4 [a, b, c, d]) = some (Addr.v4 [a, b, c, d]) := by
  have hfind : (string4 [a, b, c, d]).find? (fun c => decide (c = '.' ∨ c = ':' ∨ c = '%')) =
      some '.' := by
    simp only [string4, List.getD_cons_zero, List.getD_cons_succ]
    apply find_append_stop
    · intro ch hch
      have := digit_not_special ch (appendDecimal_plain a ha ch hch)
      simp [this.1, this.2.1, this.2.2.1]
    · decide
  unfold ParseAddr
  rw [hfind]
  simp [parseIPv4Fields_string4 a b c d ha hb hc hd]

theorem parseUint_foldl_mono (m : List Char) (acc : Nat) :
    acc ≤ m.foldl (fun n c => n * 10 + (c.toNat - 48)) acc := by
  induction m generalizing acc with
  | nil => simp
  | cons c cs ih =>
    simp only [List.foldl_cons]
    exact le_trans (by omega) (ih _)

theorem dtoiLoop_digits (m : List Char) (acc i : Nat)
    (hm : ∀ ch ∈ m, isDecimalDigit ch = true)
    (hv : m.foldl (fun n c => n * 10 + (c.toNat - 48)) acc < 0xFFFFFF) :
    dtoiLoop m acc i = (m.foldl (fun n c => n * 10 + (c.toNat - 48)) acc, i + m.length, true) := by
  induction m generalizing acc i with
  | nil => simp [dtoiLoop]
  | cons c cs ih =>
    have hc : isDecimalDigit c = true := hm c (List.mem_cons_self _ _)
    simp only [List.foldl_cons] at hv ⊢
    have hmono := parseUint_foldl_mono cs (acc * 10 + (c.toNat - 48))
    have hlt : ¬ (acc * 10 + (c.toNat - 48) ≥ 0xFFFFFF) := by omega
    simp only [dtoiLoop, hc, hlt, if_true, if_false]
    rw [ih _ _ (fun y hy => hm y (List.mem_cons_of_mem _ hy)) hv]
    simp only [List.length_cons, Prod.mk.injEq, and_true, true_and]
    omega

theorem dtoi_digits (m : List Char) (hne : m ≠ []) (hm : ∀ ch ∈ m, isDecimalDigit ch = true)
    (hv : parseUint m < 0xFFFFFF) : dtoi m = (parseUint m, m.length, true) := by
  unfold dtoi
  rw [dtoiLoop_digits m 0 0 hm hv]
  have : m.length ≠ 0 := by simpa using hne
  simp [parseUint, this]

theorem ParseCIDR_v4 (s : String) (a b c d p : Nat) (h : IsIPv4CIDR s a b c d p) :
    ParseCIDR s.data =
      some (v4InV6Prefix ++ [a, b, c, d],
        ⟨unpackOctets (packOctets a b c d / 2 ^ (32 - p) * 2 ^ (32 - p)), CIDRMask p 32⟩) := by
  obtain ⟨ha, hb, hc, hd, hp, m, hne, hm, hval, hs⟩ := h
  have hspan : (s.data).span (fun c => decide (c ≠ '/')) = (string4 [a, b, c, d], '/' :: m) := by
    rw [hs]
    exact span_append_stop _ _ _ _ (string4_noSlash a b c d ha hb hc hd) (by decide)
  have hd2 := dtoi_digits m hne hm (by rw [hval]; omega)
  have hp2 : ¬ p > 32 := by omega
  simp only [ParseCIDR, hspan, ParseAddr_string4 a b c d ha hb hc hd, List.drop_succ_cons,
    List.drop_zero, hd2, hval, Addr.Zone, Addr.BitLen, Addr.As16,
    ipMask_v4 a b c d p ha hb hc hd hp]
  simp [hp2]

/-! ## Lemmas: the loop of `getIPsFromSubnet` on an IPv4 block -/

theorem incIP_length (ip : List Nat) : (incIP ip).length = ip.length := by
  have h : ∀ l : List Nat, (incIPLoop l).length = l.length := by
    intro l
    induction l with
    | nil => simp [incIPLoop]
    | cons b bs ih =>
      simp only [incIPLoop]
      split_ifs <;> simp [ih]
  simp [incIP, h]

theorem enumerate_fuel_mono (ipnet : IPNet) (f k : Nat) (ip : List Nat) (acc l : List String)
    (h : enumerate ipnet f ip acc = some l) : enumerate ipnet (f + k) ip acc = some l := by
  induction f generalizing ip acc with
  | zero => simp [enumerate] at h
  | succ f ih =>
    have e : f + 1 + k = (f + k) + 1 := by omega
    rw [e]
    simp only [enumerate] at h ⊢
    split_ifs at h ⊢ with hc
    · exact ih _ _ h
    · exact h

theorem enumerate_unique (ipnet : IPNet) (f g : Nat) (ip : List Nat) (acc l l2 : List String)
    (h : enumerate ipnet f ip acc = some l) (h2 : enumerate ipnet g ip acc = some l2) :
    l = l2 := by
  have a := enumerate_fuel_mono ipnet f g ip acc l h
  have b := enumerate_fuel_mono ipnet g f ip acc l2 h2
  rw [Nat.add_comm] at b
  rw [a] at b
  exact Option.some.inj b

theorem block_div (q B j : Nat) (hj : j < B) : (q * B + j) / B = q := by
  have hB : 0 < B := by omega
  rw [Nat.add_comm, Nat.add_mul_div_right _ _ hB, Nat.div_eq_of_lt hj, Nat.zero_add]

theorem enumerate_block (p q : Nat) (hp1 : 1 ≤ p) (hp : p ≤ 32) (hq : q < 2 ^ p) :
    ∀ (r j fuel : Nat) (acc : List String), j + r = 2 ^ (32 - p) → r < fuel →
      enumerate ⟨unpackOctets (q * 2 ^ (32 - p)), CIDRMask p 32⟩ fuel
          (unpackOctets ((q * 2 ^ (32 - p) + j) % 2 ^ 32)) acc =
        some (acc ++ (List.range' (q * 2 ^ (32 - p) + j) r).map render) := by
  have hB : 0 < 2 ^ (32 - p) := Nat.two_pow_pos _
  have hsplit : 2 ^ 32 = 2 ^ p * 2 ^ (32 - p) := by
    rw [← pow_add]; congr 1; omega
  have htop : (q + 1) * 2 ^ (32 - p) ≤ 2 ^ 32 := by
    rw [hsplit]; exact Nat.mul_le_mul_right _ hq
  have hN : q * 2 ^ (32 - p) < 2 ^ 32 := by
    have : q * 2 ^ (32 - p) < (q + 1) * 2 ^ (32 - p) := by
      rw [Nat.add_mul]; omega
    omega
  have hNdiv : q * 2 ^ (32 - p) / 2 ^ (32 - p) = q := Nat.mul_div_cancel _ hB
  intro r
  induction r with
  | zero =>
    intro j fuel acc hj hf
    obtain ⟨f, rfl⟩ : ∃ f, fuel = f + 1 := ⟨fuel - 1, by omega⟩
    simp only [Nat.add_zero] at hj
    subst hj
    have hv : (q * 2 ^ (32 - p) + 2 ^ (32 - p)) % 2 ^ 32 < 2 ^ 32 := Nat.mod_lt _ (by positivity)
    have hnot : ¬ (q = (q * 2 ^ (32 - p) + 2 ^ (32 - p)) % 2 ^ 32 / 2 ^ (32 - p)) := by
      have e : q * 2 ^ (32 - p) + 2 ^ (32 - p) = (q + 1) * 2 ^ (32 - p) := by ring
      rw [e]
      by_cases hlast : q + 1 = 2 ^ p
      · rw [hlast, ← hsplit, Nat.mod_self, Nat.zero_div]
        have : 2 ≤ 2 ^ p := by
          calc 2 = 2 ^ 1 := by norm_num
            _ ≤ 2 ^ p := Nat.pow_le_pow_right (by norm_num) hp1
        omega
      · have hlt : (q + 1) * 2 ^ (32 - p) < 2 ^ 32 := by
          rw [hsplit]
          exact Nat.mul_lt_mul_of_pos_right (by omega) hB
        rw [Nat.mod_eq_of_lt hlt, Nat.mul_div_cancel _ hB]
        omega
    simp only [enumerate, contains_v4 _ _ p hN hv hp, hNdiv, hnot, decide_False,
      List.range'_zero, List.map_nil, List.append_nil]
    simp
  | succ r ih =>
    intro j fuel acc hj hf
    obtain ⟨f, rfl⟩ : ∃ f, fuel = f + 1 := ⟨fuel - 1, by omega⟩
    have hjB : j < 2 ^ (32 - p) := by omega
    have hv : q * 2 ^ (32 - p) + j < 2 ^ 32 := by
      have : q * 2 ^ (32 - p) + j < (q + 1) * 2 ^ (32 - p) := by
        rw [Nat.add_mul]; omega
      omega
    rw [Nat.mod_eq_of_lt hv]
    have hin : q = (q * 2 ^ (32 - p) + j) / 2 ^ (32 - p) := (block_div q _ j hjB).symm
    simp only [enumerate, contains_v4 _ _ p hN hv hp, hNdiv, ← hin, decide_True, if_true]
    rw [incIP_unpack _ hv]
    have e : q * 2 ^ (32 - p) + j + 1 = q * 2 ^ (32 - p) + (j + 1) := by ring
    rw [e, ih (j + 1) f _ (by omega) (by omega)]
    simp [render, List.range'_succ, e]

theorem packOctets_lt (a b c d : Nat) (ha : a < 256) (hb : b < 256) (hc : c < 256)
    (hd : d < 256) : packOctets a b c d < 2 ^ 32 := by
  unfold packOctets; omega

theorem block_quot_lt (v p : Nat) (hv : v < 2 ^ 32) (hp : p ≤ 32) :
    v / 2 ^ (32 - p) < 2 ^ p := by
  apply Nat.div_lt_of_lt_mul
  have : 2 ^ (32 - p) * 2 ^ p = 2 ^ 32 := by
    rw [← pow_add]; congr 1; omega
  rw [this]; exact hv

theorem enumerate_v4 (s : String) (a b c d p fuel : Nat) (h : IsIPv4CIDR s a b c d p)
    (hp1 : 1 ≤ p) (hf : 2 ^ (32 - p) < fuel) :
    getIPsFromSubnet fuel s =
      some (.ok (stripEnds
        ((List.range' (networkOf (packOctets a b c d) p) (2 ^ (32 - p))).map render))) := by
  have hpar := ParseCIDR_v4 s a b c d p h
  obtain ⟨ha, hb, hc, hd, hp, -⟩ := h
  have hV := packOctets_lt a b c d ha hb hc hd
  have hq := block_quot_lt _ p hV hp
  have hrun := enumerate_block p (packOctets a b c d / 2 ^ (32 - p)) hp1 hp hq
    (2 ^ (32 - p)) 0 fuel [] (by simp) hf
  have hN : packOctets a b c d / 2 ^ (32 - p) * 2 ^ (32 - p) < 2 ^ 32 := mask_lt _ _ hV
  simp only [Nat.add_zero, Nat.mod_eq_of_lt hN, List.nil_append] at hrun
  simp only [getIPsFromSubnet, hpar, ipMask_v4 a b c d p ha hb hc hd hp, hrun, networkOf]

theorem contains_all (ip : List Nat) (hl : ip.length = 4) :
    (IPNet.mk (unpackOctets 0) (CIDRMask 0 32)).Contains ip = true := by
  match ip, hl with
  | [a, b, c, d], _ =>
    simp [IPNet.Contains, networkNumberAndMask, To4, unpackOctets, CIDRMask, cidrMaskLoop,
      containsLoop]

theorem enumerate_all (fuel : Nat) (ip : List Nat) (acc : List String) (hl : ip.length = 4) :
    enumerate ⟨unpackOctets 0, CIDRMask 0 32⟩ fuel ip acc = none := by
  induction fuel generalizing ip acc with
  | zero => simp [enumerate]
  | succ f ih =>
    simp only [enumerate, contains_all ip hl, if_true]
    exact ih _ _ (by rw [incIP_length, hl])

theorem enumerate_v4_zero (s : String) (a b c d fuel : Nat) (h : IsIPv4CIDR s a b c d 0) :
    getIPsFromSubnet fuel s = none := by
  have hpar := ParseCIDR_v4 s a b c d 0 h
  obtain ⟨ha, hb, hc, hd, hp, -⟩ := h
  have hV := packOctets_lt a b c d ha hb hc hd
  have hz : packOctets a b c d / 2 ^ (32 - 0) * 2 ^ (32 - 0) = 0 := by
    rw [Nat.div_eq_of_lt (by simpa using hV)]; simp
  simp only [getIPsFromSubnet, hpar, ipMask_v4 a b c d 0 ha hb hc hd hp, hz]
  rw [enumerate_all fuel _ _ (unpackOctets_length 0)]

theorem range'_ends (N B : Nat) (hB : 2 ≤ B) :
    List.range' N B = N :: (List.range' (N + 1) (B - 2) ++ [N + B - 1]) := by
  obtain ⟨k, rfl⟩ : ∃ k, B = k + 2 := ⟨B - 2, by omega⟩
  rw [List.range'_succ, List.range'_1_concat]
  simp only [Nat.add_sub_cancel, List.cons.injEq, true_and]
  congr 2
  omega

theorem stripEnds_block {f : Nat → String} (N B : Nat) (hB : 2 < B) :
    stripEnds ((List.range' N B).map f) = (List.range' (N + 1) (B - 2)).map f := by
  have hlen : ((List.range' N B).map f).length = B := by simp
  unfold stripEnds
  rw [hlen, if_pos hB, range'_ends N B (by omega)]
  simp only [List.map_cons, List.map_append, List.drop_succ_cons, List.drop_zero]
  rw [List.take_left' (by simp)]

theorem stripEnds_short (l : List String) (h : l.length ≤ 2) : stripEnds l = l := by
  unfold stripEnds
  rw [if_neg (by omega)]

theorem ipToInt_render (v : Nat) (hv : v < 2 ^ 32) : ipToInt (render v) = v :=
  ipToInt_unpack v hv

theorem render_inj (u v : Nat) (hu : u < 2 ^ 32) (hv : v < 2 ^ 32) (h : render u = render v) :
    u = v := by
  rw [← ipToInt_render u hu, ← ipToInt_render v hv, h]

theorem getIPs_unique (s : String) (f g : Nat) (l l2 : List String)
    (h : getIPsFromSubnet f s = some (.ok l)) (h2 : getIPsFromSubnet g s = some (.ok l2)) :
    l = l2 := by
  unfold getIPsFromSubnet at h h2
  cases hp : ParseCIDR s.data with
  | none => simp [hp] at h
  | some r =>
    obtain ⟨ip, ipnet⟩ := r
    simp only [hp] at h h2
    cases e1 : enumerate ipnet f (ipMask ip ipnet.Mask) [] with
    | none => simp [e1] at h
    | some x =>
      cases e2 : enumerate ipnet g (ipMask ip ipnet.Mask) [] with
      | none => simp [e2] at h2
      | some y =>
        simp only [e1, e2, Option.some.injEq, Except.ok.injEq] at h h2
        rw [← h, ← h2, enumerate_unique ipnet f g _ _ x y e1 e2]

theorem block_top (v p : Nat) (hv : v < 2 ^ 32) (hp : p ≤ 32) :
    networkOf v p + 2 ^ (32 - p) ≤ 2 ^ 32 := by
  have hq := block_quot_lt v p hv hp
  have hsplit : 2 ^ 32 = 2 ^ p * 2 ^ (32 - p) := by
    rw [← pow_add]; congr 1; omega
  have : (v / 2 ^ (32 - p) + 1) * 2 ^ (32 - p) ≤ 2 ^ 32 := by
    rw [hsplit]; exact Nat.mul_le_mul_right _ hq
  unfold networkOf
  rw [Nat.add_mul] at this
  omega

theorem render_pairwise (N B : Nat) (h : N + B ≤ 2 ^ 32) :
    ((List.range' N B).map render).Pairwise (fun x y => ipToInt x < ipToInt y) := by
  rw [List.pairwise_map]
  refine List.Pairwise.imp_of_mem ?_ (List.pairwise_lt_range' N B)
  intro u v hu hv huv
  rw [List.mem_range'_1] at hu hv
  rw [ipToInt_render u (by omega), ipToInt_render v (by omega)]
  exact huv

theorem stripEnds_sublist (l : List String) : (stripEnds l).Sublist l := by
  unfold stripEnds
  split_ifs
  · exact (List.take_sublist _ _).trans (List.drop_sublist _ _)
  · exact List.Sublist.refl l

theorem isIPv4CIDR_192_168_1_0_24 : IsIPv4CIDR "192.168.1.0/24" 192 168 1 0 24 :=
  ⟨by decide, by decide, by decide, by decide, by decide, ['2', '4'], by decide, by decide,
    by decide, by decide⟩

theorem isIPv4CIDR_10_0_0_0_30 : IsIPv4CIDR "10.0.0.0/30" 10 0 0 0 30 :=
  ⟨by decide, by decide, by decide, by decide, by decide, ['3', '0'], by decide, by decide,
    by decide, by decide⟩

theorem isIPv4CIDR_10_0_0_0_31 : IsIPv4CIDR "10.0.0.0/31" 10 0 0 0 31 :=
  ⟨by decide, by decide, by decide, by decide, by decide, ['3', '1'], by decide, by decide,
    by decide, by decide⟩

theorem isIPv4CIDR_10_0_0_5_32 : IsIPv4CIDR "10.0.0.5/32" 10 0 0 5 32 :=
  ⟨by decide, by decide, by decide, by decide, by decide, ['3', '2'], by decide, by decide,
    by decide, by decide⟩

theorem isIPv4CIDR_10_0_255_250_20 : IsIPv4CIDR "10.0.255.250/20" 10 0 255 250 20 :=
  ⟨by decide, by decide, by decide, by decide, by decide, ['2', '0'], by decide, by decide,
    by decide, by decide⟩

theorem isIPv4CIDR_0_0_0_0_0 : IsIPv4CIDR "0.0.0.0/0" 0 0 0 0 0 :=
  ⟨by decide, by decide, by decide, by decide, by decide, ['0'], by decide, by decide,
    by decide, by decide⟩

/-! ## Lemmas: insertion sort and the order of `scanIPs` -/

theorem insertLeft_perm {α : Type} (less : α → α → Bool) (x : α) (l : List α) :
    (insertLeft less x l).Perm (x :: l) := by
  induction l with
  | nil => simp [insertLeft]
  | cons y ys ih =>
    unfold insertLeft
    split_ifs
    · exact (List.Perm.cons y ih).trans (List.Perm.swap x y ys)
    · exact List.Perm.refl _

theorem insertionFold_perm {α : Type} (less : α → α → Bool) (xs acc : List α) :
    (xs.foldl (fun sortedRev x => insertLeft less x sortedRev) acc).Perm (xs.reverse ++ acc) := by
  induction xs generalizing acc with
  | nil => simp
  | cons x xs ih =>
    simp only [List.foldl_cons, List.reverse_cons, List.append_assoc, List.singleton_append]
    exact (ih _).trans (List.Perm.append_left _ (insertLeft_perm less x acc))

theorem insertionSortFunc_perm {α : Type} (less : α → α → Bool) (xs : List α) :
    (insertionSortFunc less xs).Perm xs := by
  unfold insertionSortFunc
  refine (List.reverse_perm _).trans ?_
  have := insertionFold_perm less xs []
  simp only [List.append_nil] at this
  exact this.trans (List.reverse_perm xs)

theorem insertLeft_sorted {α : Type} (key : α → Nat) (x : α) (l : List α)
    (hl : l.Pairwise (fun a b => key b ≤ key a)) :
    (insertLeft (fun a b => decide (key a < key b)) x l).Pairwise
      (fun a b => key b ≤ key a) := by
  induction l with
  | nil => simp [insertLeft]
  | cons y ys ih =>
    rw [List.pairwise_cons] at hl
    unfold insertLeft
    split_ifs with hxy
    · simp only [decide_eq_true_eq] at hxy
      rw [List.pairwise_cons]
      refine ⟨?_, ih hl.2⟩
      intro z hz
      have hz2 := (insertLeft_perm _ x ys).subset hz
      rcases List.mem_cons.1 hz2 with rfl | hz3
      · omega
      · exact hl.1 z hz3
    · simp only [decide_eq_true_eq, not_lt] at hxy
      rw [List.pairwise_cons]
      refine ⟨?_, List.pairwise_cons.2 hl⟩
      intro z hz
      rcases List.mem_cons.1 hz with rfl | hz3
      · exact hxy
      · exact le_trans (hl.1 z hz3) hxy

theorem insertionFold_sorted {α : Type} (key : α → Nat) (xs acc : List α)
    (hacc : acc.Pairwise (fun a b => key b ≤ key a)) :
    (xs.foldl (fun sortedRev x => insertLeft (fun a b => decide (key a < key b)) x sortedRev)
      acc).Pairwise (fun a b => key b ≤ key a) := by
  induction xs generalizing acc with
  | nil => simpa using hacc
  | cons x xs ih =>
    simp only [List.foldl_cons]
    exact ih _ (insertLeft_sorted key x acc hacc)

theorem insertionSortFunc_sorted {α : Type} (key : α → Nat) (xs : List α) :
    (insertionSortFunc (fun a b => decide (key a < key b)) xs).Pairwise
      (fun a b => key a ≤ key b) := by
  unfold insertionSortFunc
  rw [List.pairwise_reverse]
  exact insertionFold_sorted key xs [] List.Pairwise.nil

theorem sliceSorter_nonempty (α : Type) : Nonempty (SliceSorter α) :=
  ⟨⟨insertionSortFunc, insertionSortFunc_perm, insertionSortFunc_sorted, fun _ _ _ => rfl⟩⟩

theorem sorted_perm_unique (l1 l2 : List ScanResult) (hp : l1.Perm l2)
    (h1 : l1.Pairwise (fun r1 r2 => ipToInt r1.IP ≤ ipToInt r2.IP))
    (h2 : l2.Pairwise (fun r1 r2 => ipToInt r1.IP ≤ ipToInt r2.IP))
    (hinj : ∀ r1 ∈ l1, ∀ r2 ∈ l1, ipToInt r1.IP = ipToInt r2.IP → r1 = r2) : l1 = l2 := by
  let R : ScanResult → ScanResult → Prop := fun r1 r2 => ipToInt r1.IP < ipToInt r2.IP ∨ r1 = r2
  haveI : IsAntisymm ScanResult R := ⟨by
    intro a b hab hba
    rcases hab with hab | hab
    · rcases hba with hba | hba
      · exact absurd hab (by omega)
      · exact hba.symm
    · exact hab⟩
  have s1 : l1.Pairwise R := by
    refine List.Pairwise.imp_of_mem ?_ h1
    intro a b ha hb hab
    rcases Nat.lt_or_eq_of_le hab with hlt | heq
    · exact Or.inl hlt
    · exact Or.inr (hinj a ha b hb heq)
  have s2 : l2.Pairwise R := by
    refine List.Pairwise.imp_of_mem ?_ h2
    intro a b ha hb hab
    rcases Nat.lt_or_eq_of_le hab with hlt | heq
    · exact Or.inl hlt
    · exact Or.inr (hinj a (hp.symm.subset ha) b (hp.symm.subset hb) heq)
  exact List.eq_of_perm_of_sorted hp s1 s2

theorem scanIPs_perm (S : SliceSorter ScanResult) (pingIP : String → Bool) (ips : List String) :
    (scanIPs S pingIP ips).Perm (ips.map (fun a => ScanResult.mk a (pingIP a))) :=
  S.perm _ _

theorem scanIPs_sorted (S : SliceSorter ScanResult) (pingIP : String → Bool)
    (ips : List String) :
    (scanIPs S pingIP ips).Pairwise (fun r1 r2 => ipToInt r1.IP ≤ ipToInt r2.IP) :=
  S.sorted (fun r => ipToInt r.IP) _

theorem key_injective_of_increasing {α : Type} (key : α → Nat) (l : List α)
    (h : l.Pairwise (fun a b => key a < key b)) :
    ∀ a ∈ l, ∀ b ∈ l, key a = key b → a = b := by
  induction l with
  | nil => intro a ha; simp at ha
  | cons x xs ih =>
    rw [List.pairwise_cons] at h
    intro a ha b hb hab
    rcases List.mem_cons.1 ha with rfl | ha2
    · rcases List.mem_cons.1 hb with rfl | hb2
      · rfl
      · exact absurd hab (ne_of_lt (h.1 b hb2))
    · rcases List.mem_cons.1 hb with rfl | hb2
      · exact absurd hab.symm (ne_of_lt (h.1 a ha2))
      · exact ih h.2 a ha2 b hb2 hab

theorem scanIPs_of_increasing (S : SliceSorter ScanResult) (pingIP : String → Bool)
    (ips : List String) (hinc : ips.Pairwise (fun x y => ipToInt x < ipToInt y)) :
    scanIPs S pingIP ips = ips.map (fun a => ScanResult.mk a (pingIP a)) := by
  have hs : (ips.map (fun a => ScanResult.mk a (pingIP a))).Pairwise
      (fun r1 r2 => ipToInt r1.IP < ipToInt r2.IP) := by
    rw [List.pairwise_map]; exact hinc
  exact (sorted_perm_unique _ _ (scanIPs_perm S pingIP ips).symm (hs.imp (fun h => le_of_lt h))
    (scanIPs_sorted S pingIP ips)
    (key_injective_of_increasing (fun r : ScanResult => ipToInt r.IP) _ hs)).symm

/-! ## Lemmas: the invariant of the goroutines -/

theorem countP_set {α : Type} (q : α → Bool) (l : List α) (i : Nat) (a b : α)
    (h : l[i]? = some a) :
    (l.set i b).countP q + (if q a then 1 else 0) = l.countP q + (if q b then 1 else 0) := by
  induction l generalizing i with
  | nil => simp at h
  | cons x xs ih =>
    cases i with
    | zero =>
      simp only [List.getElem?_cons_zero, Option.some.injEq] at h
      subst h
      simp only [List.set_cons_zero, List.countP_cons]
      omega
    | succ i =>
      simp only [List.getElem?_cons_succ] at h
      have := ih i h
      simp only [List.set_cons_succ, List.countP_cons]
      omega

theorem getElem?_set_cases {α : Type} (l : List α) (i j : Nat) (b x : α)
    (h : (l.set i b)[j]? = some x) : (j = i ∧ x = b) ∨ (j ≠ i ∧ l[j]? = some x) := by
  rw [List.getElem?_set] at h
  by_cases hij : i = j
  · subst hij
    rw [if_pos rfl] at h
    split_ifs at h
    exact Or.inl ⟨rfl, (Option.some.inj h).symm⟩
  · rw [if_neg hij] at h
    exact Or.inr ⟨fun e => hij e.symm, h⟩

theorem getElem?_concat_cases {α : Type} (l : List α) (j : Nat) (b x : α)
    (h : (l ++ [b])[j]? = some x) : l[j]? = some x ∨ x = b := by
  rw [List.getElem?_append] at h
  split_ifs at h with hj
  · exact Or.inl h
  · right
    have : ([b] : List α)[j - l.length]? = some x := h
    cases hk : j - l.length with
    | zero => rw [hk] at this; simpa using this.symm
    | succ k => rw [hk] at this; simp at this

theorem lt_of_getElem? {α : Type} (l : List α) (i : Nat) (a : α) (h : l[i]? = some a) :
    i < l.length := by
  by_contra hn
  rw [List.getElem?_eq_none (by omega)] at h
  exact absurd h (by simp)

theorem inv_init (pingIP : String → Bool) (ips : List String) :
    ScanInv pingIP ips (ScanState.init ips) := by
  constructor <;> simp [ScanState.init, semCapacity]

theorem inv_step (pingIP : String → Bool) (ips : List String) (s t : ScanState)
    (hs : ScanInv pingIP ips s) (st : Step pingIP ips s t) : ScanInv pingIP ips t := by
  obtain ⟨h1, h2, h3, h4, h5, h6, h7⟩ := hs
  cases st with
  | spawn hlen =>
    refine ⟨?_, h2, ?_, ?_, h5, ?_, ?_⟩
    · simp [h1, List.countP_append, Phase.inFlight]
    · simp [h3, List.countP_append, Phase.pending]
    · simp; omega
    · intro j alive hj
      rcases getElem?_concat_cases _ _ _ _ hj with h | h
      · exact h6 j alive h
      · exact absurd h (by simp)
    · intro j hj
      apply h7 j
      rcases hj with hj | hj | hj
      · rcases getElem?_concat_cases _ _ _ _ hj with h | h
        · exact Or.inl h
        · exact absurd h (by simp)
      · rcases getElem?_concat_cases _ _ _ _ hj with h | h
        · exact Or.inr (Or.inl h)
        · exact absurd h (by simp)
      · rcases getElem?_concat_cases _ _ _ _ hj with h | h
        · exact Or.inr (Or.inr h)
        · exact absurd h (by simp)
  | acquire i hi room =>
    have c1 := countP_set Phase.inFlight _ i _ Phase.probing hi
    have c2 := countP_set Phase.pending _ i _ Phase.probing hi
    simp only [Phase.inFlight, Phase.pending, if_true, Bool.false_eq_true, if_false] at c1 c2
    refine ⟨?_, ?_, ?_, ?_, h5, ?_, ?_⟩
    · simp only; omega
    · simp only [semCapacity] at room ⊢; omega
    · simp only; omega
    · simpa using h4
    · intro j alive hj
      rcases getElem?_set_cases _ _ _ _ _ hj with ⟨-, h⟩ | ⟨-, h⟩
      · exact absurd h (by simp)
      · exact h6 j alive h
    · intro j hj
      apply h7 j
      rcases hj with hj | hj | hj <;>
        rcases getElem?_set_cases _ _ _ _ _ hj with ⟨-, h⟩ | ⟨-, h⟩ <;>
        first
          | exact absurd h (by simp)
          | exact Or.inl h
          | exact Or.inr (Or.inl h)
          | exact Or.inr (Or.inr h)
  | probe i hi =>
    have c1 := countP_set Phase.inFlight _ i _ (Phase.probed (pingIP (ips.getD i ""))) hi
    have c2 := countP_set Phase.pending _ i _ (Phase.probed (pingIP (ips.getD i ""))) hi
    simp only [Phase.inFlight, Phase.pending, if_true, Bool.false_eq_true, if_false] at c1 c2
    refine ⟨?_, h2, ?_, ?_, h5, ?_, ?_⟩
    · simp only; omega
    · simp only; omega
    · simpa using h4
    · intro j alive hj
      rcases getElem?_set_cases _ _ _ _ _ hj with ⟨hji, h⟩ | ⟨-, h⟩
      · subst hji
        simp only [Phase.probed.injEq] at h
        exact h
      · exact h6 j alive h
    · intro j hj
      apply h7 j
      rcases hj with hj | hj | hj <;>
        rcases getElem?_set_cases _ _ _ _ _ hj with ⟨-, h⟩ | ⟨-, h⟩ <;>
        first
          | exact absurd h (by simp)
          | exact Or.inl h
          | exact Or.inr (Or.inl h)
          | exact Or.inr (Or.inr h)
  | fail i hi =>
    have c1 := countP_set Phase.inFlight _ i _ Phase.panicking hi
    have c2 := countP_set Phase.pending _ i _ Phase.panicking hi
    simp only [Phase.inFlight, Phase.pending, if_true, Bool.false_eq_true, if_false] at c1 c2
    refine ⟨?_, h2, ?_, ?_, h5, ?_, ?_⟩
    · simp only; omega
    · simp only; omega
    · simpa using h4
    · intro j alive hj
      rcases getElem?_set_cases _ _ _ _ _ hj with ⟨-, h⟩ | ⟨-, h⟩
      · exact absurd h (by simp)
      · exact h6 j alive h
    · intro j hj
      apply h7 j
      rcases hj with hj | hj | hj <;>
        rcases getElem?_set_cases _ _ _ _ _ hj with ⟨-, h⟩ | ⟨-, h⟩ <;>
        first
          | exact absurd h (by simp)
          | exact Or.inl h
          | exact Or.inr (Or.inl h)
          | exact Or.inr (Or.inr h)
  | write i alive hi =>
    have c1 := countP_set Phase.inFlight _ i _ Phase.written hi
    have c2 := countP_set Phase.pending _ i _ Phase.written hi
    simp only [Phase.inFlight, Phase.pending, if_true, Bool.false_eq_true, if_false] at c1 c2
    have hlt := lt_of_getElem? _ _ _ hi
    have halive := h6 i alive hi
    refine ⟨?_, h2, ?_, ?_, ?_, ?_, ?_⟩
    · simp only; omega
    · simp only; omega
    · simpa using h4
    · simpa using h5
    · intro j alive hj
      rcases getElem?_set_cases _ _ _ _ _ hj with ⟨-, h⟩ | ⟨-, h⟩
      · exact absurd h (by simp)
      · exact h6 j alive h
    · intro j hj
      by_cases hji : j = i
      · subst hji
        simp only
        rw [List.getElem?_set_self (by omega), halive]
      · simp only
        rw [List.getElem?_set_ne (fun e => hji e.symm)]
        apply h7 j
        rcases hj with hj | hj | hj <;>
          rcases getElem?_set_cases _ _ _ _ _ hj with ⟨h0, h⟩ | ⟨-, h⟩ <;>
          first
            | exact absurd h0 hji
            | exact Or.inl h
            | exact Or.inr (Or.inl h)
            | exact Or.inr (Or.inr h)
  | release i hi hne =>
    have c1 := countP_set Phase.inFlight _ i _ Phase.released hi
    have c2 := countP_set Phase.pending _ i _ Phase.released hi
    simp only [Phase.inFlight, Phase.pending, if_true, Bool.false_eq_true, if_false] at c1 c2
    have hw := h7 i (Or.inl hi)
    refine ⟨?_, ?_, ?_, ?_, h5, ?_, ?_⟩
    · simp only; omega
    · simp only; omega
    · simp only; omega
    · simpa using h4
    · intro j alive hj
      rcases getElem?_set_cases _ _ _ _ _ hj with ⟨-, h⟩ | ⟨-, h⟩
      · exact absurd h (by simp)
      · exact h6 j alive h
    · intro j hj
      by_cases hji : j = i
      · subst hji; exact hw
      · apply h7 j
        rcases hj with hj | hj | hj <;>
          rcases getElem?_set_cases _ _ _ _ _ hj with ⟨h0, h⟩ | ⟨-, h⟩ <;>
          first
            | exact absurd h0 hji
            | exact Or.inl h
            | exact Or.inr (Or.inl h)
            | exact Or.inr (Or.inr h)
  | releasePanic i hi hne =>
    have c1 := countP_set Phase.inFlight _ i _ Phase.releasedPanic hi
    have c2 := countP_set Phase.pending _ i _ Phase.releasedPanic hi
    simp only [Phase.inFlight, Phase.pending, if_true, Bool.false_eq_true, if_false] at c1 c2
    refine ⟨?_, ?_, ?_, ?_, h5, ?_, ?_⟩
    · simp only; omega
    · simp only; omega
    · simp only; omega
    · simpa using h4
    · intro j alive hj
      rcases getElem?_set_cases _ _ _ _ _ hj with ⟨-, h⟩ | ⟨-, h⟩
      · exact absurd h (by simp)
      · exact h6 j alive h
    · intro j hj
      apply h7 j
      rcases hj with hj | hj | hj <;>
        rcases getElem?_set_cases _ _ _ _ _ hj with ⟨-, h⟩ | ⟨-, h⟩ <;>
        first
          | exact absurd h (by simp)
          | exact Or.inl h
          | exact Or.inr (Or.inl h)
          | exact Or.inr (Or.inr h)
  | done i hi =>
    have c1 := countP_set Phase.inFlight _ i _ Phase.finished hi
    have c2 := countP_set Phase.pending _ i _ Phase.finished hi
    simp only [Phase.inFlight, Phase.pending, if_true, Bool.false_eq_true, if_false] at c1 c2
    have hw := h7 i (Or.inr (Or.inl hi))
    refine ⟨?_, h2, ?_, ?_, h5, ?_, ?_⟩
    · simp only; omega
    · simp only; omega
    · simpa using h4
    · intro j alive hj
      rcases getElem?_set_cases _ _ _ _ _ hj with ⟨-, h⟩ | ⟨-, h⟩
      · exact absurd h (by simp)
      · exact h6 j alive h
    · intro j hj
      by_cases hji : j = i
      · subst hji; exact hw
      · apply h7 j
        rcases hj with hj | hj | hj <;>
          rcases getElem?_set_cases _ _ _ _ _ hj with ⟨h0, h⟩ | ⟨-, h⟩ <;>
          first
            | exact absurd h0 hji
            | exact Or.inl h
            | exact Or.inr (Or.inl h)
            | exact Or.inr (Or.inr h)
  | donePanic i hi =>
    have c1 := countP_set Phase.inFlight _ i _ Phase.crashed hi
    have c2 := countP_set Phase.pending _ i _ Phase.crashed hi
    simp only [Phase.inFlight, Phase.pending, if_true, Bool.false_eq_true, if_false] at c1 c2
    refine ⟨?_, h2, ?_, ?_, h5, ?_, ?_⟩
    · simp only; omega
    · simp only; omega
    · simpa using h4
    · intro j alive hj
      rcases getElem?_set_cases _ _ _ _ _ hj with ⟨-, h⟩ | ⟨-, h⟩
      · exact absurd h (by simp)
      · exact h6 j alive h
    · intro j hj
      apply h7 j
      rcases hj with hj | hj | hj <;>
        rcases getElem?_set_cases _ _ _ _ _ hj with ⟨-, h⟩ | ⟨-, h⟩ <;>
        first
          | exact absurd h (by simp)
          | exact Or.inl h
          | exact Or.inr (Or.inl h)
          | exact Or.inr (Or.inr h)

theorem inv_reachable (pingIP : String → Bool) (ips : List String) (s : ScanState)
    (h : Reachable pingIP ips s) : ScanInv pingIP ips s := by
  induction h with
  | init => exact inv_init pingIP ips
  | step _ st ih => exact inv_step pingIP ips _ _ ih st

theorem reach_spawned (pingIP : String → Bool) (ips : List String) (n : Nat)
    (hn : n ≤ ips.length) :
    Reachable pingIP ips
      ⟨List.replicate n Phase.waiting, 0, List.replicate ips.length ⟨"", false⟩, n⟩ := by
  induction n with
  | zero => exact Reachable.init
  | succ n ih =>
    have r := Reachable.step (ih (by omega)) (Step.spawn _ (by simpa using hn))
    simpa [List.replicate_succ'] using r

theorem reach_acquired (pingIP : String → Bool) (ips : List String) (n k : Nat)
    (hn : n ≤ ips.length) (hk : k ≤ n) (hcap : k ≤ semCapacity) :
    Reachable pingIP ips
      ⟨List.replicate k Phase.probing ++ List.replicate (n - k) Phase.waiting, k,
        List.replicate ips.length ⟨"", false⟩, n⟩ := by
  induction k with
  | zero => simpa using reach_spawned pingIP ips n hn
  | succ k ih =>
    obtain ⟨j, hj⟩ : ∃ j, n - k = j + 1 := ⟨n - k - 1, by omega⟩
    have hj2 : n - (k + 1) = j := by omega
    have hget : (List.replicate k Phase.probing ++ List.replicate (n - k) Phase.waiting)[k]? =
        some Phase.waiting := by
      rw [List.getElem?_append_right (by simp)]
      simp [hj, List.replicate_succ]
    have hroom : (ScanState.mk
        (List.replicate k Phase.probing ++ List.replicate (n - k) Phase.waiting) k
        (List.replicate ips.length ⟨"", false⟩) n).sem < semCapacity := by
      show k < semCapacity
      omega
    have r := Reachable.step (ih (by omega) (by omega)) (Step.acquire _ k hget hroom)
    have hset : (List.replicate k Phase.probing ++ List.replicate (n - k) Phase.waiting).set k
        Phase.probing =
        List.replicate (k + 1) Phase.probing ++ List.replicate (n - (k + 1)) Phase.waiting := by
      rw [hj, hj2, List.set_append_right _ _ (by simp)]
      simp only [List.length_replicate, Nat.sub_self, List.replicate_succ, List.set_cons_zero]
      have e : List.replicate k Phase.probing ++ Phase.probing :: List.replicate j Phase.waiting =
          (List.replicate k Phase.probing ++ [Phase.probing]) ++ List.replicate j Phase.waiting := by
        simp
      rw [e, ← List.replicate_succ', List.replicate_succ]
    simp only [hset] at r
    exact r

theorem reach_full : Reachable (fun _ => true) fiftyOne fullState :=
  reach_acquired (fun _ => true) fiftyOne 51 50 (by decide) (by decide) (by decide)

theorem results_after_wait (pingIP : String → Bool) (ips : List String) (s : ScanState)
    (h : Reachable pingIP ips s) (hw : s.waitReturns ips) (hc : Phase.crashed ∉ s.threads) :
    s.results = ips.map (fun ipAddr => ScanResult.mk ipAddr (pingIP ipAddr)) := by
  have inv := inv_reachable pingIP ips s h
  obtain ⟨hlen, hwg⟩ := hw
  have hall : ∀ t ∈ s.threads, t = Phase.finished := by
    intro t ht
    have h0 : s.threads.countP Phase.pending = 0 := by rw [← inv.wg_eq, hwg]
    rw [List.countP_eq_zero] at h0
    have hp := h0 t ht
    cases t <;> simp [Phase.pending] at hp ⊢
    exact hc ht
  apply List.ext_getElem?
  intro i
  by_cases hi : i < ips.length
  · have hti : s.threads[i]? = some Phase.finished := by
      have hi2 : i < s.threads.length := by omega
      rw [List.getElem?_eq_getElem hi2]
      exact congrArg some (hall _ (List.getElem_mem _))
    rw [inv.stored i (Or.inr (Or.inr hti))]
    simp [List.getElem?_map, List.getElem?_eq_getElem hi, List.getD_eq_getElem?_getD]
  · rw [List.getElem?_eq_none (by rw [inv.slots]; omega),
      List.getElem?_eq_none (by simp; omega)]

theorem inFlight_can_step (pingIP : String → Bool) (ips : List String) (s : ScanState)
    (inv : ScanInv pingIP ips s) (i : Nat) (ph : Phase) (hi : s.threads[i]? = some ph)
    (hph : ph.inFlight = true) :
    ∃ t, Step pingIP ips s t ∧ t.threads[i]? ≠ some ph := by
  have hlt := lt_of_getElem? _ _ _ hi
  have hpos : 0 < s.sem := by
    rw [inv.sem_eq, List.countP_pos_iff]
    exact ⟨ph, List.getElem?_mem hi, hph⟩
  cases ph with
  | probing =>
    exact ⟨_, Step.probe s i hi, by simp [List.getElem?_set_self hlt]⟩
  | probed alive =>
    exact ⟨_, Step.write s i alive hi, by simp [List.getElem?_set_self hlt]⟩
  | written =>
    exact ⟨_, Step.release s i hi hpos, by simp [List.getElem?_set_self hlt]⟩
  | panicking =>
    exact ⟨_, Step.releasePanic s i hi hpos, by simp [List.getElem?_set_self hlt]⟩
  | waiting => simp [Phase.inFlight] at hph
  | released => simp [Phase.inFlight] at hph
  | releasedPanic => simp [Phase.inFlight] at hph
  | finished => simp [Phase.inFlight] at hph
  | crashed => simp [Phase.inFlight] at hph

/-! ## Lemmas: what the parsers accept is an IPv4 CIDR -/

theorem joinFields_concat (completed : List Nat) (v : Nat) :
    joinFields (completed ++ [v]) = joinFields completed ++ (appendDecimal v ++ ['.']) := by
  simp [joinFields, List.flatMap_append]

theorem string4_eq_join (a b c d : Nat) :
    string4 [a, b, c, d] = joinFields [a, b, c] ++ appendDecimal d := by
  simp [string4, joinFields, List.flatMap_cons]

theorem digit_char_eq (c : Char) (h : isDecimalDigit c = true) :
    c.toNat - 48 < 10 ∧ c = digitChar (c.toNat - 48) := by
  simp only [isDecimalDigit, Bool.decide_and, Bool.and_eq_true, decide_eq_true_eq] at h
  refine ⟨by omega, ?_⟩
  have e : 48 + (c.toNat - 48) = c.toNat := by omega
  have hlt : c.toNat - 48 < 10 := by omega
  simp only [digitChar, hlt, if_true, e, Char.ofNat_toNat]

theorem appendDecimal_digit : ∀ k < 10, appendDecimal k = [digitChar k] := by decide

set_option maxRecDepth 100000 in
theorem appendDecimal_snoc : ∀ v < 26, ∀ k < 10, 1 ≤ v → v * 10 + k ≤ 255 →
    appendDecimal (v * 10 + k) = appendDecimal v ++ [digitChar k] := by decide

theorem set_completed (completed : List Nat) (pos v : Nat) (hlen : completed.length = pos)
    (hpos : pos ≤ 3) :
    (completed ++ List.replicate (4 - pos) 0).set pos v =
      (completed ++ [v]) ++ List.replicate (4 - (pos + 1)) 0 := by
  subst hlen
  obtain ⟨k, hk⟩ : ∃ k, 4 - completed.length = k + 1 := ⟨3 - completed.length, by omega⟩
  have hk2 : 4 - (completed.length + 1) = k := by omega
  rw [hk, hk2, List.replicate_succ, List.set_append_right _ _ (le_refl _)]
  simp

theorem parseIPv4Loop_sound (rest : List Char) :
    ∀ (pre : List Char) (prev : Option Char) (val pos digLen : Nat) (completed f : List Nat),
      V4Inv pre prev val pos digLen completed →
      (digLen = 0 → 0 < pos → rest ≠ []) →
      parseIPv4Loop rest prev val pos digLen (completed ++ List.replicate (4 - pos) 0) = some f →
      ∃ a b c d, f = [a, b, c, d] ∧ a < 256 ∧ b < 256 ∧ c < 256 ∧ d < 256 ∧
        pre ++ rest = string4 [a, b, c, d] := by
  induction rest with
  | nil =>
    intro pre prev val pos digLen completed f inv hrest hrun
    simp only [parseIPv4Loop] at hrun
    split_ifs at hrun with hp
    have hpos : pos = 3 := by have := inv.pos_le; omega
    subst hpos
    have hdig : 0 < digLen := by
      by_contra h0
      exact hrest (by omega) (by norm_num) rfl
    obtain ⟨hpre, -, -, -⟩ := inv.inside hdig
    have hlen := inv.len
    match completed, hlen with
    | [a, b, c], _ =>
      have hb := inv.bytes
      simp only [List.mem_cons, List.mem_singleton, List.not_mem_nil, or_false] at hb
      refine ⟨a, b, c, val, ?_, hb a (Or.inl rfl), hb b (Or.inr (Or.inl rfl)),
        hb c (Or.inr (Or.inr rfl)), by have := inv.val_le; omega, ?_⟩
      · have : val % 256 = val := Nat.mod_eq_of_lt (by have := inv.val_le; omega)
        simp only [Option.some.injEq] at hrun
        rw [← hrun, this]
        rfl
      · rw [List.append_nil, hpre, string4_eq_join]
  | cons c rest ih =>
    intro pre prev val pos digLen completed f inv hrest hrun
    simp only [parseIPv4Loop] at hrun
    by_cases hc : isDecimalDigit c = true
    · simp only [hc, if_true] at hrun
      split_ifs at hrun with hzero hbig
      obtain ⟨hk, hck⟩ := digit_char_eq c hc
      have hbig2 : val * 10 + (c.toNat - 48) ≤ 255 := by omega
      have hcdot : c ≠ '.' := by
        rintro rfl; revert hc; decide
      have key : pre ++ [c] = joinFields completed ++ appendDecimal (val * 10 + (c.toNat - 48)) := by
        by_cases hd0 : digLen = 0
        · obtain ⟨hv, hpre, -⟩ := inv.fresh hd0
          rw [hv, hpre, Nat.zero_mul, Nat.zero_add, appendDecimal_digit _ hk, ← hck]
        · obtain ⟨hpre, -, -, hz⟩ := inv.inside (by omega)
          have hv1 : 1 ≤ val := by
            by_contra h0
            have hv0 : val = 0 := by omega
            exact hzero ⟨hz hv0, hv0⟩
          rw [hpre, appendDecimal_snoc val (by omega) _ hk hv1 hbig2, ← hck, List.append_assoc]
      have inv2 : V4Inv (pre ++ [c]) (some c) (val * 10 + (c.toNat - 48)) pos (digLen + 1)
          completed := by
        refine ⟨inv.len, inv.pos_le, inv.bytes, hbig2, fun h => absurd h (by omega), fun _ => ?_⟩
        refine ⟨key, by simp, fun h => hcdot (Option.some.inj h), ?_⟩
        intro hv0
        by_cases hd0 : digLen = 0
        · omega
        · obtain ⟨-, -, -, hz⟩ := inv.inside (by omega)
          have hv : val = 0 := by omega
          exact absurd ⟨hz hv, hv⟩ hzero
      have := ih (pre ++ [c]) (some c) _ pos (digLen + 1) completed f inv2
        (fun h => absurd h (by omega)) hrun
      simpa using this
    · simp only [hc, Bool.false_eq_true, if_false] at hrun
      split_ifs at hrun with hdot hbad hpos3
      subst hdot
      simp only [not_or] at hbad
      obtain ⟨hprev1, hrne, hprev2⟩ := hbad
      have hdig : 0 < digLen := by
        by_contra h0
        obtain ⟨-, -, hp⟩ := inv.fresh (by omega)
        rcases hp with hp | hp
        · exact hprev1 hp
        · exact hprev2 hp
      obtain ⟨hpre, -, -, -⟩ := inv.inside hdig
      have hvmod : val % 256 = val := Nat.mod_eq_of_lt (by have := inv.val_le; omega)
      rw [hvmod, set_completed completed pos val inv.len inv.pos_le] at hrun
      have inv2 : V4Inv (pre ++ ['.']) (some '.') 0 (pos + 1) 0 (completed ++ [val]) := by
        refine ⟨by simp [inv.len], by have := inv.pos_le; omega, ?_, by norm_num, fun _ => ?_,
          fun h => absurd h (by omega)⟩
        · intro x hx
          rcases List.mem_append.1 hx with h | h
          · exact inv.bytes x h
          · have := inv.val_le
            simp only [List.mem_singleton] at h
            omega
        · refine ⟨rfl, ?_, Or.inr rfl⟩
          rw [joinFields_concat, hpre, List.append_assoc]
      have := ih (pre ++ ['.']) (some '.') 0 (pos + 1) 0 (completed ++ [val]) f inv2
        (fun _ _ => hrne) hrun
      simpa using this

theorem parseIPv4Fields_sound (s : List Char) (f : List Nat) (h : parseIPv4Fields s = some f) :
    ∃ a b c d, f = [a, b, c, d] ∧ a < 256 ∧ b < 256 ∧ c < 256 ∧ d < 256 ∧
      s = string4 [a, b, c, d] := by
  have inv : V4Inv [] none 0 0 0 [] :=
    ⟨rfl, by norm_num, by simp, by norm_num, fun _ => ⟨rfl, rfl, Or.inl rfl⟩,
      fun h => absurd h (by omega)⟩
  have := parseIPv4Loop_sound s [] none 0 0 0 [] f inv (fun _ h => absurd h (by omega)) h
  simpa using this

theorem isDottedQuad_iff_parse (s : String) (a b c d : Nat) :
    IsDottedQuad s a b c d ↔ parseIPv4Fields s.data = some [a, b, c, d] := by
  constructor
  · rintro ⟨ha, hb, hc, hd, hs⟩
    rw [hs]
    exact parseIPv4Fields_string4 a b c d ha hb hc hd
  · intro h
    obtain ⟨a2, b2, c2, d2, hf, ha, hb, hc, hd, hs⟩ := parseIPv4Fields_sound _ _ h
    simp only [List.cons.injEq, and_true] at hf
    obtain ⟨rfl, rfl, rfl, rfl⟩ := hf
    exact ⟨ha, hb, hc, hd, hs⟩

theorem span_spec {α : Type} (q : α → Bool) (s : List α) :
    s = (s.span q).1 ++ (s.span q).2 ∧ (∀ c ∈ (s.span q).1, q c = true) ∧
      ((s.span q).2 = [] ∨ ∃ x r, (s.span q).2 = x :: r ∧ q x = false) := by
  rw [List.span_eq_take_drop]
  refine ⟨(List.takeWhile_append_dropWhile q s).symm, fun c hc => List.mem_takeWhile_imp hc, ?_⟩
  induction s with
  | nil => simp
  | cons x xs ih =>
    by_cases hx : q x = true
    · simpa [List.dropWhile_cons, hx] using ih
    · right
      simp only [Bool.not_eq_true] at hx
      exact ⟨x, xs, by simp [List.dropWhile_cons, hx], hx⟩

theorem dtoiLoop_sound (m : List Char) (acc i n : Nat)
    (h : dtoiLoop m acc i = (n, i + m.length, true)) :
    (∀ ch ∈ m, isDecimalDigit ch = true) ∧
      n = m.foldl (fun n c => n * 10 + (c.toNat - 48)) acc := by
  induction m generalizing acc i with
  | nil =>
    simp only [dtoiLoop, Prod.mk.injEq] at h
    simp [h.1]
  | cons c cs ih =>
    simp only [dtoiLoop] at h
    split_ifs at h with hc hbig
    · simp at h
    · have e : i + (c :: cs).length = (i + 1) + cs.length := by
        simp only [List.length_cons]; omega
      rw [e] at h
      obtain ⟨h1, h2⟩ := ih _ _ h
      refine ⟨?_, by simpa using h2⟩
      intro ch hch
      rcases List.mem_cons.1 hch with rfl | hch
      · exact hc
      · exact h1 ch hch
    · simp only [Prod.mk.injEq, List.length_cons] at h
      omega

theorem dtoi_sound (m : List Char) (n : Nat) (h : dtoi m = (n, m.length, true)) :
    m ≠ [] ∧ (∀ ch ∈ m, isDecimalDigit ch = true) ∧ parseUint m = n := by
  unfold dtoi at h
  rcases hl : dtoiLoop m 0 0 with ⟨n1, i1, ok1⟩
  rw [hl] at h
  cases ok1 with
  | false => simp at h
  | true =>
    by_cases hi : i1 = 0
    · simp [hi] at h
    · have h2 : (n1, i1, true) = (n, m.length, true) := by
        simpa [hi] using h
      simp only [Prod.mk.injEq, and_true] at h2
      obtain ⟨hn, hi2⟩ := h2
      subst hn
      subst hi2
      have hl2 : dtoiLoop m 0 0 = (n1, 0 + m.length, true) := by rw [hl, Nat.zero_add]
      obtain ⟨h1, h2⟩ := dtoiLoop_sound m 0 0 n1 hl2
      refine ⟨?_, h1, by rw [h2]; rfl⟩
      rintro rfl
      exact hi rfl

theorem ParseCIDR_parts (s : List Char) (r : List Nat × IPNet) (h : ParseCIDR s = some r) :
    ∃ addr mask ipAddr n, s = addr ++ '/' :: mask ∧ ParseAddr addr = some ipAddr ∧
      ipAddr.Zone = [] ∧ dtoi mask = (n, mask.length, true) ∧ n ≤ ipAddr.BitLen := by
  obtain ⟨hs, -, hpost⟩ := span_spec (fun c => decide (c ≠ '/')) s
  rcases hsp : s.span (fun c => decide (c ≠ '/')) with ⟨addr, post⟩
  rw [hsp] at hs hpost
  simp only at hs hpost
  unfold ParseCIDR at h
  rw [hsp] at h
  simp only at h
  rcases hpost with hp | ⟨x, mask, hx, hq⟩
  · simp [hp] at h
  have hx2 : x = '/' := by simpa using hq
  subst hx2
  subst hx
  simp only [List.drop_succ_cons, List.drop_zero] at h
  cases hpa : ParseAddr addr with
  | none => simp [hpa] at h
  | some ipAddr =>
    rcases hdt : dtoi mask with ⟨n, i, ok⟩
    simp only [hpa, hdt] at h
    by_cases hzone : ipAddr.Zone = []
    · simp [hzone] at h
      obtain ⟨⟨hok, hi, hn⟩, -⟩ := h
      subst hok
      subst hi
      exact ⟨addr, mask, ipAddr, n, hs, hpa, hzone, hdt, hn⟩
    · simp [hzone] at h

theorem ParseAddr_dot (addr : List Char) (ipAddr : Addr) (h : ParseAddr addr = some ipAddr)
    (hcolon : ':' ∉ addr) : ∃ f, parseIPv4Fields addr = some f ∧ ipAddr = Addr.v4 f := by
  unfold ParseAddr at h
  cases hfind : addr.find? (fun c => decide (c = '.' ∨ c = ':' ∨ c = '%')) with
  | none => rw [hfind] at h; simp at h
  | some ch =>
    rw [hfind] at h
    simp only at h
    have hne : ch ≠ ':' := fun e => hcolon (e ▸ List.mem_of_find?_eq_some hfind)
    by_cases hdot : ch = '.'
    · simp only [hdot, if_true] at h
      cases hv4 : parseIPv4Fields addr with
      | none => simp [hv4] at h
      | some f =>
        simp only [hv4, Option.map_some', Option.some.injEq] at h
        exact ⟨f, rfl, h.symm⟩
    · simp [hdot, hne] at h

theorem ParseCIDR_sound (s : List Char) (r : List Nat × IPNet) (h : ParseCIDR s = some r)
    (hcolon : ':' ∉ s) :
    ∃ a b c d p m, a < 256 ∧ b < 256 ∧ c < 256 ∧ d < 256 ∧ p ≤ 32 ∧ m ≠ [] ∧
      (∀ ch ∈ m, isDecimalDigit ch = true) ∧ parseUint m = p ∧
      s = string4 [a, b, c, d] ++ '/' :: m := by
  obtain ⟨addr, mask, ipAddr, n, hs, hpa, -, hdt, hn⟩ := ParseCIDR_parts s r h
  have hc2 : ':' ∉ addr := fun hm => hcolon (by rw [hs]; exact List.mem_append_left _ hm)
  obtain ⟨f, hv4, rfl⟩ := ParseAddr_dot addr ipAddr hpa hc2
  obtain ⟨a, b, c, d, -, ha, hb, hc, hd, haddr⟩ := parseIPv4Fields_sound _ _ hv4
  obtain ⟨m1, m2, m3⟩ := dtoi_sound mask n hdt
  simp only [Addr.BitLen] at hn
  exact ⟨a, b, c, d, n, mask, ha, hb, hc, hd, hn, m1, m2, m3, by rw [← haddr]; exact hs⟩

theorem not_isIPv4CIDR_of_parse_none (s : String) (h : ParseCIDR s.data = none) :
    ¬ ∃ a b c d p, IsIPv4CIDR s a b c d p := by
  rintro ⟨a, b, c, d, p, hs⟩
  rw [ParseCIDR_v4 s a b c d p hs] at h
  exact absurd h (by simp)

theorem getIPs_error_iff (s : String) (fuel : Nat) (msg : String) :
    getIPsFromSubnet fuel s = some (.error msg) ↔
      ParseCIDR s.data = none ∧ msg = "invalid CIDR notation: invalid CIDR address: " ++ s := by
  unfold getIPsFromSubnet
  cases hp : ParseCIDR s.data with
  | none =>
    simp only [Option.some.injEq, Except.error.injEq, true_and]
    exact eq_comm
  | some r =>
    obtain ⟨ip, ipnet⟩ := r
    simp only
    cases enumerate ipnet fuel (ipMask ip ipnet.Mask) [] <;> simp

theorem results_after_wait_example :
    ∃ s, Reachable (fun _ => true) ["10.0.0.1"] s ∧ s.waitReturns ["10.0.0.1"] ∧
      Phase.crashed ∉ s.threads ∧ s.results = [⟨"10.0.0.1", true⟩] := by
  have r0 : Reachable (fun _ => true) ["10.0.0.1"] (ScanState.init ["10.0.0.1"]) :=
    Reachable.init
  have r1 := Reachable.step r0 (Step.spawn _ (by decide))
  have r2 := Reachable.step r1 (Step.acquire _ 0 (by decide) (by decide))
  have r3 := Reachable.step r2 (Step.probe _ 0 (by decide))
  have r4 := Reachable.step r3 (Step.write _ 0 true (by decide))
  have r5 := Reachable.step r4 (Step.release _ 0 (by decide) (by decide))
  have r6 := Reachable.step r5 (Step.done _ 0 (by decide))
  exact ⟨⟨[Phase.finished], 0, [⟨"10.0.0.1", true⟩], 0⟩, r6, ⟨rfl, rfl⟩, by decide, rfl⟩

/-! ## Lemmas: what `Sscanf` reads from a component -/

theorem digit_not_space (c : Char) (h : isDecimalDigit c = true) :
    isSpace c = false ∧ c ≠ '\r' ∧ c ≠ '\n' := by
  refine ⟨?_, ?_, ?_⟩
  · simp only [isDecimalDigit, Bool.decide_and, Bool.and_eq_true, decide_eq_true_eq] at h
    simp only [isSpace, decide_eq_false_iff_not]
    omega
  · rintro rfl; revert h; decide
  · rintro rfl; revert h; decide

theorem skipSpace_plain (c : Char) (rest : List Char) (h : isSpace c = false) :
    skipSpace (c :: rest) = some (c :: rest) := by
  have h1 : c ≠ '\r' := by rintro rfl; revert h; decide
  have h2 : c ≠ '\n' := by rintro rfl; revert h; decide
  simp [skipSpace, h1, h2, h]

theorem sscanf_no_digit (p : List Char)
    (h : p = [] ∨ ∃ c rest, p = c :: rest ∧ isDecimalDigit c = false ∧ isSpace c = false) :
    sscanfUint32 p = none := by
  rcases h with rfl | ⟨c, rest, rfl, hd, hs⟩
  · decide
  · simp [sscanfUint32, skipSpace_plain c rest hs, List.takeWhile, hd]

theorem takeWhile_digits (ds rest : List Char) (hds : ∀ c ∈ ds, isDecimalDigit c = true)
    (hrest : rest = [] ∨ ∃ c r, rest = c :: r ∧ isDecimalDigit c = false) :
    (ds ++ rest).takeWhile isDecimalDigit = ds := by
  induction ds with
  | nil =>
    rcases hrest with rfl | ⟨c, r, rfl, hc⟩
    · rfl
    · simp [List.takeWhile, hc]
  | cons d ds ih =>
    have hd : isDecimalDigit d = true := hds d (List.mem_cons_self _ _)
    simp [List.takeWhile, hd, ih (fun c hc => hds c (List.mem_cons_of_mem _ hc))]

theorem sscanf_leading_digits (ds rest : List Char) (hne : ds ≠ [])
    (hds : ∀ c ∈ ds, isDecimalDigit c = true)
    (hrest : rest = [] ∨ ∃ c r, rest = c :: r ∧ isDecimalDigit c = false) :
    sscanfUint32 (ds ++ rest) = if parseUint ds < 2 ^ 32 then some (parseUint ds) else none := by
  have htw := takeWhile_digits ds rest hds hrest
  match ds, hne with
  | d :: ds, _ =>
    have hd : isDecimalDigit d = true := hds d (List.mem_cons_self _ _)
    have hsk : skipSpace (d :: ds ++ rest) = some (d :: ds ++ rest) :=
      skipSpace_plain d (ds ++ rest) (digit_not_space d hd).1
    simp only [sscanfUint32, hsk, htw]
    rw [if_neg (List.cons_ne_nil d ds)]
    norm_num only
    by_cases hv : parseUint (d :: ds) < 4294967296
    · have hv2 : parseUint (d :: ds) < 18446744073709551616 := lt_trans hv (by norm_num)
      rw [if_pos ⟨hv2, hv⟩, if_pos hv]
    · rw [if_neg (fun h => hv h.2), if_neg hv]

/-! ## The properties of the specification, C1 to C10 -/

/-- C1: for an IPv4 CIDR string with at most 30 network bits, every list that
`getIPsFromSubnet` returns holds neither the text of the network address (host
bits zero) nor that of the directed broadcast address (host bits one), and no
entry has the number of either; with at least one network bit the function
does return, namely the addresses strictly between the two, in order. -/
theorem getIPsFromSubnet_excludes_network_and_broadcast (s : String) (a b c d p : Nat)
    (h : IsIPv4CIDR s a b c d p) (hp30 : p ≤ 30) :
    (∀ fuel l, getIPsFromSubnet fuel s = some (.ok l) →
      render (networkOf (packOctets a b c d) p) ∉ l ∧
      render (broadcastOf (packOctets a b c d) p) ∉ l ∧
      ∀ x ∈ l, ipToInt x ≠ networkOf (packOctets a b c d) p ∧
        ipToInt x ≠ broadcastOf (packOctets a b c d) p) ∧
    (1 ≤ p → getIPsFromSubnet (2 ^ (32 - p) + 1) s =
      some (.ok ((List.range' (networkOf (packOctets a b c d) p + 1)
        (2 ^ (32 - p) - 2)).map render))) := by
  have hV : packOctets a b c d < 2 ^ 32 :=
    packOctets_lt a b c d h.1 h.2.1 h.2.2.1 h.2.2.2.1
  have hB : 2 < 2 ^ (32 - p) := by
    calc 2 < 2 ^ 2 := by norm_num
      _ ≤ 2 ^ (32 - p) := Nat.pow_le_pow_right (by norm_num) (by omega)
  have htop := block_top _ p hV (by omega : p ≤ 32)
  have hrun : 1 ≤ p → getIPsFromSubnet (2 ^ (32 - p) + 1) s =
      some (.ok ((List.range' (networkOf (packOctets a b c d) p + 1)
        (2 ^ (32 - p) - 2)).map render)) := by
    intro hp1
    rw [enumerate_v4 s a b c d p _ h hp1 (by omega), stripEnds_block _ _ hB]
  refine ⟨?_, hrun⟩
  intro fuel l hl
  by_cases hp1 : 1 ≤ p
  · have hl2 := getIPs_unique s _ _ _ _ hl (hrun hp1)
    subst hl2
    have key : ∀ x ∈ (List.range' (networkOf (packOctets a b c d) p + 1)
        (2 ^ (32 - p) - 2)).map render,
        ipToInt x ≠ networkOf (packOctets a b c d) p ∧
        ipToInt x ≠ broadcastOf (packOctets a b c d) p := by
      intro x hx
      rw [List.mem_map] at hx
      obtain ⟨u, hu, rfl⟩ := hx
      rw [List.mem_range'_1] at hu
      rw [ipToInt_render u (by omega)]
      unfold broadcastOf
      omega
    refine ⟨?_, ?_, key⟩
    · intro hmem
      have := (key _ hmem).1
      rw [ipToInt_render _ (by omega)] at this
      exact this rfl
    · intro hmem
      have := (key _ hmem).2
      rw [ipToInt_render _ (by unfold broadcastOf; omega)] at this
      exact this rfl
  · have hp0 : p = 0 := by omega
    subst hp0
    rw [enumerate_v4_zero s a b c d fuel h] at hl
    exact absurd hl (by simp)

/-- C1 at "10.0.0.0/30" and "192.168.1.0/24": the first yields exactly
10.0.0.1 and 10.0.0.2, the second 254 addresses from 192.168.1.1 to
192.168.1.254, and neither list holds the network or the broadcast address. -/
theorem getIPsFromSubnet_excludes_witness :
    IsIPv4CIDR "10.0.0.0/30" 10 0 0 0 30 ∧
    getIPsFromSubnet 5 "10.0.0.0/30" = some (.ok ["10.0.0.1", "10.0.0.2"]) ∧
    (∀ fuel l, getIPsFromSubnet fuel "10.0.0.0/30" = some (.ok l) →
      "10.0.0.0" ∉ l ∧ "10.0.0.3" ∉ l) ∧
    (∃ l, getIPsFromSubnet 257 "192.168.1.0/24" = some (.ok l) ∧ l.length = 254 ∧
      l.head? = some "192.168.1.1" ∧ l.getLast? = some "192.168.1.254" ∧
      "192.168.1.0" ∉ l ∧ "192.168.1.255" ∉ l) := by
  have h30 := getIPsFromSubnet_excludes_network_and_broadcast "10.0.0.0/30" 10 0 0 0 30
    isIPv4CIDR_10_0_0_0_30 (by decide)
  have h24 := getIPsFromSubnet_excludes_network_and_broadcast "192.168.1.0/24" 192 168 1 0 24
    isIPv4CIDR_192_168_1_0_24 (by decide)
  refine ⟨isIPv4CIDR_10_0_0_0_30, ?_, ?_, ?_⟩
  · exact (h30.2 (by decide)).trans (by decide)
  · intro fuel l hl
    have := h30.1 fuel l hl
    have e1 : render (networkOf (packOctets 10 0 0 0) 30) = "10.0.0.0" := by decide
    have e2 : render (broadcastOf (packOctets 10 0 0 0) 30) = "10.0.0.3" := by decide
    rw [e1, e2] at this
    exact ⟨this.1, this.2.1⟩
  · have hrun : getIPsFromSubnet 257 "192.168.1.0/24" = _ := h24.2 (by decide)
    have hex := h24.1 _ _ hrun
    have e1 : render (networkOf (packOctets 192 168 1 0) 24) = "192.168.1.0" := by decide
    have e2 : render (broadcastOf (packOctets 192 168 1 0) 24) = "192.168.1.255" := by decide
    rw [e1, e2] at hex
    refine ⟨_, hrun, by simp, ?_, ?_, hex.1, hex.2.1⟩
    · have : networkOf (packOctets 192 168 1 0) 24 + 1 = 3232235777 := by decide
      rw [this]
      have e : (2 : Nat) ^ (32 - 24) - 2 = 253 + 1 := by norm_num
      rw [e, List.range'_succ]
      decide
    · have : networkOf (packOctets 192 168 1 0) 24 + 1 = 3232235777 := by decide
      rw [this]
      have e : (2 : Nat) ^ (32 - 24) - 2 = 253 + 1 := by norm_num
      rw [e, List.range'_1_concat, List.map_append, List.getLast?_append]
      decide

/-- C2: for an IPv4 CIDR string, every list that `getIPsFromSubnet` returns is
strictly increasing by numeric address (`ipToInt` of an entry is below
`ipToInt` of every later entry); with at least one network bit the function
does return a list, the texts of consecutive numbers (less the two ends when
there are more than two). -/
theorem getIPsFromSubnet_strictly_increasing (s : String) (a b c d p : Nat)
    (h : IsIPv4CIDR s a b c d p) :
    (∀ fuel l, getIPsFromSubnet fuel s = some (.ok l) →
      l.Pairwise (fun x y => ipToInt x < ipToInt y)) ∧
    (1 ≤ p → getIPsFromSubnet (2 ^ (32 - p) + 1) s =
      some (.ok (stripEnds
        ((List.range' (networkOf (packOctets a b c d) p) (2 ^ (32 - p))).map render)))) := by
  have hV : packOctets a b c d < 2 ^ 32 :=
    packOctets_lt a b c d h.1 h.2.1 h.2.2.1 h.2.2.2.1
  have hp : p ≤ 32 := h.2.2.2.2.1
  have hrun : 1 ≤ p → getIPsFromSubnet (2 ^ (32 - p) + 1) s = _ :=
    fun hp1 => enumerate_v4 s a b c d p _ h hp1 (by omega)
  refine ⟨?_, hrun⟩
  intro fuel l hl
  by_cases hp1 : 1 ≤ p
  · have hl2 := getIPs_unique s _ _ _ _ hl (hrun hp1)
    subst hl2
    exact (render_pairwise _ _ (block_top _ p hV hp)).sublist (stripEnds_sublist _)
  · have hp0 : p = 0 := by omega
    subst hp0
    rw [enumerate_v4_zero s a b c d fuel h] at hl
    exact absurd hl (by simp)

/-- C2 at "10.0.255.250/20", a block that crosses octet boundaries: the list
of 4094 addresses after 10.0.240.0 is returned and is strictly increasing. -/
theorem getIPsFromSubnet_strictly_increasing_witness :
    IsIPv4CIDR "10.0.255.250/20" 10 0 255 250 20 ∧
    ∃ l, getIPsFromSubnet 4097 "10.0.255.250/20" = some (.ok l) ∧ l.length = 4094 ∧
      l.head? = some "10.0.240.1" ∧
      l.Pairwise (fun x y => ipToInt x < ipToInt y) := by
  have h := getIPsFromSubnet_strictly_increasing "10.0.255.250/20" 10 0 255 250 20
    isIPv4CIDR_10_0_255_250_20
  have hrun : getIPsFromSubnet 4097 "10.0.255.250/20" = _ := h.2 (by decide)
  have hpw := h.1 _ _ hrun
  rw [stripEnds_block _ _ (by decide)] at hrun hpw
  refine ⟨isIPv4CIDR_10_0_255_250_20, _, hrun, by simp, ?_, hpw⟩
  have hN : networkOf (packOctets 10 0 255 250) 20 + 1 = 167833601 := by decide
  have hB : (2 : Nat) ^ (32 - 20) - 2 = 4093 + 1 := by norm_num
  rw [hN, hB, List.range'_succ]
  decide

/-- C3: for an IPv4 CIDR string with 31 or 32 network bits, `getIPsFromSubnet`
returns (with any fuel of at least 3) exactly the addresses of the block, from
the network address up and with nothing stripped: two for a /31, one for a /32,
the address itself. -/
theorem getIPsFromSubnet_small_blocks (s : String) (a b c d p : Nat)
    (h : IsIPv4CIDR s a b c d p) (hp : p = 31 ∨ p = 32) :
    (∀ fuel, 3 ≤ fuel → getIPsFromSubnet fuel s =
      some (.ok ((List.range' (networkOf (packOctets a b c d) p) (2 ^ (32 - p))).map render))) ∧
    (p = 31 → (List.range' (networkOf (packOctets a b c d) p) (2 ^ (32 - p))).map render =
      [render (networkOf (packOctets a b c d) 31),
       render (networkOf (packOctets a b c d) 31 + 1)]) ∧
    (p = 32 → (List.range' (networkOf (packOctets a b c d) p) (2 ^ (32 - p))).map render =
      [render (packOctets a b c d)]) := by
  refine ⟨?_, ?_, ?_⟩
  · intro fuel hf
    have hB : 2 ^ (32 - p) ≤ 2 := by
      rcases hp with rfl | rfl <;> norm_num
    rw [enumerate_v4 s a b c d p fuel h (by omega) (by omega), stripEnds_short _ (by simpa using hB)]
  · rintro rfl
    simp [List.range'_succ]
  · rintro rfl
    simp [networkOf]

/-- C3 at "10.0.0.0/31" and "10.0.0.5/32". -/
theorem getIPsFromSubnet_small_blocks_witness :
    IsIPv4CIDR "10.0.0.0/31" 10 0 0 0 31 ∧
    getIPsFromSubnet 3 "10.0.0.0/31" = some (.ok ["10.0.0.0", "10.0.0.1"]) ∧
    getIPsFromSubnet 3 "10.0.0.5/32" = some (.ok ["10.0.0.5"]) := by
  have h31 := getIPsFromSubnet_small_blocks "10.0.0.0/31" 10 0 0 0 31 isIPv4CIDR_10_0_0_0_31
    (Or.inl rfl)
  have h32 := getIPsFromSubnet_small_blocks "10.0.0.5/32" 10 0 0 5 32 isIPv4CIDR_10_0_0_5_32
    (Or.inr rfl)
  exact ⟨isIPv4CIDR_10_0_0_0_31, (h31.1 3 (le_refl 3)).trans (by decide),
    (h32.1 3 (le_refl 3)).trans (by decide)⟩

/-- C4: with the prober a function of the address, `scanIPs` returns a
rearrangement of the pairs (address, verdict of that address) of its input:
the same length, the same addresses with the same multiplicities, every entry
with the verdict of its own address, and in non-decreasing order of
`ipToInt`; and it is the sorted slice `results` of every state of the
goroutines in which `wg.Wait()` returns (no slot lost or overwritten). -/
theorem scanIPs_sorted_rearrangement (S : SliceSorter ScanResult) (pingIP : String → Bool)
    (ips : List String) :
    (scanIPs S pingIP ips).Perm (ips.map (fun a => ScanResult.mk a (pingIP a))) ∧
    (scanIPs S pingIP ips).length = ips.length ∧
    ((scanIPs S pingIP ips).map ScanResult.IP).Perm ips ∧
    (∀ r ∈ scanIPs S pingIP ips, r.Alive = pingIP r.IP) ∧
    (scanIPs S pingIP ips).Pairwise (fun r1 r2 => ipToInt r1.IP ≤ ipToInt r2.IP) ∧
    (∀ st, Reachable pingIP ips st → st.waitReturns ips → Phase.crashed ∉ st.threads →
      scanIPs S pingIP ips =
        S.sort (fun r1 r2 => decide (ipToInt r1.IP < ipToInt r2.IP)) st.results) := by
  have hperm := scanIPs_perm S pingIP ips
  refine ⟨hperm, ?_, ?_, ?_, scanIPs_sorted S pingIP ips, ?_⟩
  · simpa using hperm.length_eq
  · have := hperm.map ScanResult.IP
    simpa [List.map_map, Function.comp_def] using this
  · intro r hr
    have := hperm.subset hr
    rw [List.mem_map] at this
    obtain ⟨a, -, rfl⟩ := this
    rfl
  · intro st hst hw hc
    rw [results_after_wait pingIP ips st hst hw hc]
    rfl

/-- C4 on the list enumerated for "192.168.1.0/24" with the stub prober: for
every sorter, 254 results in the order of enumeration, of which only .1 and .3
are alive. -/
theorem scanIPs_scenario :
    ∃ l, getIPsFromSubnet 257 "192.168.1.0/24" = some (.ok l) ∧
      ∀ S : SliceSorter ScanResult,
        scanIPs S stubProber l = l.map (fun a => ScanResult.mk a (stubProber a)) ∧
        (scanIPs S stubProber l).length = 254 ∧
        (scanIPs S stubProber l).take 4 = [⟨"192.168.1.1", true⟩, ⟨"192.168.1.2", false⟩,
          ⟨"192.168.1.3", true⟩, ⟨"192.168.1.4", false⟩] ∧
        (∀ r ∈ (scanIPs S stubProber l).drop 3, r.Alive = false) ∧
        (scanIPs S stubProber l).getLast? = some ⟨"192.168.1.254", false⟩ := by
  have hrun : getIPsFromSubnet 257 "192.168.1.0/24" = _ :=
    enumerate_v4 "192.168.1.0/24" 192 168 1 0 24 257 isIPv4CIDR_192_168_1_0_24 (by decide)
      (by decide)
  rw [stripEnds_block _ _ (by decide)] at hrun
  have hN : networkOf (packOctets 192 168 1 0) 24 + 1 = 3232235777 := by decide
  have hB : (2 : Nat) ^ (32 - 24) - 2 = 254 := by norm_num
  rw [hN, hB] at hrun
  have hinc := render_pairwise 3232235777 254 (by norm_num)
  refine ⟨_, hrun, fun S => ?_⟩
  have hscan := scanIPs_of_increasing S stubProber _ hinc
  have hlen := (scanIPs_sorted_rearrangement S stubProber
    ((List.range' 3232235777 254).map render)).2.1
  refine ⟨hscan, ?_, ?_, ?_, ?_⟩
  · rw [hlen]; simp
  · rw [hscan]; decide
  · rw [hscan]
    intro r hr
    have e : List.range' 3232235777 254 = List.range' 3232235777 3 ++ List.range' 3232235780 251 :=
      (List.range'_append 3232235777 3 251 1).symm
    rw [e, List.map_append, List.map_append, List.drop_left' (by simp)] at hr
    simp only [List.map_map, List.mem_map, Function.comp_apply] at hr
    obtain ⟨u, hu, rfl⟩ := hr
    rw [List.mem_range'_1] at hu
    have e1 : "192.168.1.1" = render 3232235777 := by decide
    have e3 : "192.168.1.3" = render 3232235779 := by decide
    have n1 : render u ≠ render 3232235777 := fun hh => by
      have := render_inj u _ (by omega) (by norm_num) hh
      omega
    have n3 : render u ≠ render 3232235779 := fun hh => by
      have := render_inj u _ (by omega) (by norm_num) hh
      omega
    simp [stubProber, e1, e3, n1, n3]
  · rw [hscan, List.map_map]
    have e : (254 : Nat) = 253 + 1 := rfl
    rw [e, List.range'_1_concat, List.map_append, List.getLast?_append]
    decide

/-- C5 as amended: when no two different addresses of the list have the same
`ipToInt`, the output of `scanIPs` is the same for every rearrangement of the
list; every list returned by `getIPsFromSubnet` for an IPv4 CIDR string is
such a list. -/
theorem scanIPs_permutation_invariant (S : SliceSorter ScanResult) (pingIP : String → Bool)
    (L L2 : List String) (hperm : L.Perm L2)
    (hinj : ∀ x ∈ L, ∀ y ∈ L, ipToInt x = ipToInt y → x = y) :
    scanIPs S pingIP L2 = scanIPs S pingIP L ∧
    (∀ (s : String) (a b c d p fuel : Nat) (l : List String), IsIPv4CIDR s a b c d p →
      getIPsFromSubnet fuel s = some (.ok l) →
      ∀ x ∈ l, ∀ y ∈ l, ipToInt x = ipToInt y → x = y) := by
  constructor
  · have p1 := scanIPs_perm S pingIP L
    have p2 := scanIPs_perm S pingIP L2
    have pm : (L.map (fun a => ScanResult.mk a (pingIP a))).Perm
        (L2.map (fun a => ScanResult.mk a (pingIP a))) := hperm.map _
    refine sorted_perm_unique _ _ (p2.trans (pm.symm.trans p1.symm))
      (scanIPs_sorted S pingIP L2) (scanIPs_sorted S pingIP L) ?_
    intro r1 h1 r2 h2 heq
    have m1 := (p2.trans pm.symm).subset h1
    have m2 := (p2.trans pm.symm).subset h2
    rw [List.mem_map] at m1 m2
    obtain ⟨x, hx, rfl⟩ := m1
    obtain ⟨y, hy, rfl⟩ := m2
    have := hinj x hx y hy heq
    rw [this]
  · intro s a b c d p fuel l hs hl
    by_cases hp1 : 1 ≤ p
    · have hV : packOctets a b c d < 2 ^ 32 :=
        packOctets_lt a b c d hs.1 hs.2.1 hs.2.2.1 hs.2.2.2.1
      have hrun := enumerate_v4 s a b c d p (2 ^ (32 - p) + 1) hs hp1 (by omega)
      have hl2 := getIPs_unique s _ _ _ _ hl hrun
      subst hl2
      exact key_injective_of_increasing ipToInt _
        ((render_pairwise _ _ (block_top _ p hV hs.2.2.2.2.1)).sublist (stripEnds_sublist _))
    · have hp0 : p = 0 := by omega
      subst hp0
      rw [enumerate_v4_zero s a b c d fuel hs] at hl
      exact absurd hl (by simp)

/-- C5 as amended, on three addresses and a rearrangement of them: there are
sorters, and each gives the same output for both lists, in numeric order. -/
theorem scanIPs_permutation_invariant_witness :
    Nonempty (SliceSorter ScanResult) ∧
    List.Perm ["192.168.1.1", "192.168.1.2", "192.168.1.3"]
      ["192.168.1.3", "192.168.1.1", "192.168.1.2"] ∧
    ∀ S : SliceSorter ScanResult,
      scanIPs S stubProber ["192.168.1.3", "192.168.1.1", "192.168.1.2"] =
        scanIPs S stubProber ["192.168.1.1", "192.168.1.2", "192.168.1.3"] ∧
      scanIPs S stubProber ["192.168.1.1", "192.168.1.2", "192.168.1.3"] =
        [⟨"192.168.1.1", true⟩, ⟨"192.168.1.2", false⟩, ⟨"192.168.1.3", true⟩] := by
  refine ⟨sliceSorter_nonempty _, by decide, fun S => ⟨?_, ?_⟩⟩
  · exact (scanIPs_permutation_invariant S stubProber
      ["192.168.1.1", "192.168.1.2", "192.168.1.3"]
      ["192.168.1.3", "192.168.1.1", "192.168.1.2"] (by decide) (by decide)).1
  · rw [scanIPs_of_increasing S stubProber _ (by decide)]
    decide

/-- C5 as stated fails: "::" and "::1", the list `getIPsFromSubnet` returns for
"::/127", both have `ipToInt` 0, so every sorter leaves the two entries in the
order they came in, and the reversed list gives a different output. -/
theorem scanIPs_not_permutation_invariant :
    getIPsFromSubnet 3 "::/127" = some (.ok ["::", "::1"]) ∧
    List.Perm ["::", "::1"] ["::1", "::"] ∧
    ∀ (S : SliceSorter ScanResult) (pingIP : String → Bool),
      scanIPs S pingIP ["::", "::1"] = [⟨"::", pingIP "::"⟩, ⟨"::1", pingIP "::1"⟩] ∧
      scanIPs S pingIP ["::1", "::"] = [⟨"::1", pingIP "::1"⟩, ⟨"::", pingIP "::"⟩] ∧
      scanIPs S pingIP ["::1", "::"] ≠ scanIPs S pingIP ["::", "::1"] := by
  refine ⟨by decide, by decide, fun S pingIP => ?_⟩
  have z1 : ipToInt "::" = 0 := by decide
  have z2 : ipToInt "::1" = 0 := by decide
  have e1 : scanIPs S pingIP ["::", "::1"] = [⟨"::", pingIP "::"⟩, ⟨"::1", pingIP "::1"⟩] := by
    unfold scanIPs
    rw [S.short _ _ (by simp)]
    simp [insertionSortFunc, insertLeft, z1, z2]
  have e2 : scanIPs S pingIP ["::1", "::"] = [⟨"::1", pingIP "::1"⟩, ⟨"::", pingIP "::"⟩] := by
    unfold scanIPs
    rw [S.short _ _ (by simp)]
    simp [insertionSortFunc, insertLeft, z1, z2]
  refine ⟨e1, e2, ?_⟩
  rw [e1, e2]
  intro h
  have hIP : (["::1", "::"] : List String) = ["::", "::1"] := by
    simpa using congrArg (fun l => l.map ScanResult.IP) h
  exact absurd hIP (by decide)

/-- C6 as amended: `getIPsFromSubnet` returns its error, and no list, exactly
when `net.ParseCIDR` rejects the string; that is so for every string without a
colon that is not an IPv4 CIDR string (strings with a colon may be IPv6 CIDR,
which `net.ParseCIDR` accepts); and for every IPv4 CIDR string with at least
one network bit the function returns a list. -/
theorem getIPsFromSubnet_error_cases (s : String) :
    (∀ fuel msg, getIPsFromSubnet fuel s = some (.error msg) ↔
      ParseCIDR s.data = none ∧ msg = "invalid CIDR notation: invalid CIDR address: " ++ s) ∧
    ((∀ ch ∈ s.data, ch ≠ ':') → (¬ ∃ a b c d p, IsIPv4CIDR s a b c d p) →
      ∀ fuel, getIPsFromSubnet fuel s =
        some (.error ("invalid CIDR notation: invalid CIDR address: " ++ s))) ∧
    (∀ a b c d p, IsIPv4CIDR s a b c d p → 1 ≤ p →
      ∃ l, getIPsFromSubnet (2 ^ (32 - p) + 1) s = some (.ok l)) := by
  refine ⟨fun fuel msg => getIPs_error_iff s fuel msg, ?_, ?_⟩
  · intro hcolon hnot fuel
    have hnone : ParseCIDR s.data = none := by
      cases hp : ParseCIDR s.data with
      | none => rfl
      | some r =>
        exfalso
        obtain ⟨a, b, c, d, p, m, ha, hb, hc, hd, hp32, m1, m2, m3, hs⟩ :=
          ParseCIDR_sound s.data r hp (fun hm => hcolon ':' hm rfl)
        exact hnot ⟨a, b, c, d, p, ha, hb, hc, hd, hp32, m, m1, m2, m3, hs⟩
    exact (getIPs_error_iff s fuel _).2 ⟨hnone, rfl⟩
  · intro a b c d p hs hp1
    exact ⟨_, enumerate_v4 s a b c d p _ hs hp1 (by omega)⟩

/-- C6 as amended, on "not-a-cidr", the empty string and an address without a
length: each gives the error, already with no fuel at all. -/
theorem getIPsFromSubnet_error_cases_witness :
    getIPsFromSubnet 0 "not-a-cidr" =
      some (.error "invalid CIDR notation: invalid CIDR address: not-a-cidr") ∧
    getIPsFromSubnet 0 "" = some (.error "invalid CIDR notation: invalid CIDR address: ") ∧
    getIPsFromSubnet 0 "192.168.1.1" =
      some (.error "invalid CIDR notation: invalid CIDR address: 192.168.1.1") :=
  ⟨(getIPsFromSubnet_error_cases "not-a-cidr").2.1 (by decide)
      (not_isIPv4CIDR_of_parse_none _ (by decide)) 0,
    (getIPsFromSubnet_error_cases "").2.1 (by decide)
      (not_isIPv4CIDR_of_parse_none _ (by decide)) 0,
    (getIPsFromSubnet_error_cases "192.168.1.1").2.1 (by decide)
      (not_isIPv4CIDR_of_parse_none _ (by decide)) 0⟩

/-- C6 as stated fails: "::1/128" is not an IPv4 CIDR string, and
`getIPsFromSubnet` returns the list of its one address, no error. -/
theorem getIPsFromSubnet_accepts_ipv6 :
    (¬ ∃ a b c d p, IsIPv4CIDR "::1/128" a b c d p) ∧
    getIPsFromSubnet 2 "::1/128" = some (.ok ["::1"]) := by
  refine ⟨?_, by decide⟩
  rintro ⟨a, b, c, d, p, hs⟩
  have h1 := ParseCIDR_v4 _ a b c d p hs
  have h2 : ParseCIDR "::1/128".data =
      some ([0, 0, 0, 0, 0, 0, 0, 0, 0, 0, 0, 0, 0, 0, 0, 1],
        ⟨[0, 0, 0, 0, 0, 0, 0, 0, 0, 0, 0, 0, 0, 0, 0, 1], CIDRMask 128 128⟩) := by decide
  rw [h2] at h1
  simp [v4InV6Prefix] at h1

/-- C7 at "0.0.0.0/0": whatever the fuel, the loop of `getIPsFromSubnet` has
not exited, so the function never returns. -/
theorem getIPsFromSubnet_slash_zero_never_returns :
    ∀ fuel, getIPsFromSubnet fuel "0.0.0.0/0" = none :=
  fun fuel => enumerate_v4_zero "0.0.0.0/0" 0 0 0 0 fuel isIPv4CIDR_0_0_0_0_0

/-- C8: in every state that a call of `scanIPs` can reach, whatever the number
of addresses and the interleaving, at most 50 probes are in flight (have sent
on `sem` and not yet received from it); the buffer of `sem` holds exactly one
value per probe in flight, so a goroutine that has left its body (by return or
by panic) has given its value back, and once all launched goroutines have
left, the buffer is empty; and a goroutine in flight is never blocked: its
next step, up to and including the deferred receive, can always be taken. -/
theorem scanIPs_at_most_50_in_flight (pingIP : String → Bool) (ips : List String)
    (s : ScanState) (h : Reachable pingIP ips s) :
    s.inFlight ≤ 50 ∧ s.sem = s.inFlight ∧
    (∀ t ∈ s.threads, t.exited = true → t.inFlight = false) ∧
    ((∀ t ∈ s.threads, t.exited = true) → s.sem = 0) ∧
    (∀ (i : Nat) (ph : Phase), s.threads[i]? = some ph → ph.inFlight = true →
      ∃ t, Step pingIP ips s t ∧ t.threads[i]? ≠ some ph) := by
  have inv := inv_reachable pingIP ips s h
  have hsem : s.sem = s.inFlight := inv.sem_eq
  refine ⟨?_, hsem, ?_, ?_, inFlight_can_step pingIP ips s inv⟩
  · rw [← hsem]; exact inv.sem_le
  · intro t _ ht
    cases t <;> simp [Phase.exited] at ht <;> rfl
  · intro hall
    rw [hsem, ScanState.inFlight, List.countP_eq_zero]
    intro t ht
    have := hall t ht
    cases t <;> simp [Phase.exited] at this <;> simp [Phase.inFlight]

/-- C8 on 51 addresses: the state with 50 probes in flight and the last
goroutine waiting is reachable, and no step from it brings a 51st probe in
flight. -/
theorem scanIPs_at_most_50_in_flight_witness :
    Reachable (fun _ => true) fiftyOne fullState ∧ fullState.threads.length = 51 ∧
    fullState.inFlight = 50 ∧
    ∀ t, Step (fun _ => true) fiftyOne fullState t → t.inFlight ≤ 50 :=
  ⟨reach_full, by decide, by decide,
    fun t st => (scanIPs_at_most_50_in_flight _ _ t (Reachable.step reach_full st)).1⟩

/-- C9: for a well-formed dotted-quad address `s` with octets `a b c d` (the
strings the address parser of the program accepts, as the third part
says), `ipToInt s` is `a*2^24 + b*2^16 + c*2^8 + d`, and unpacking that number
into dotted-quad text gives `s` back. -/
theorem ipToInt_round_trip (s : String) (a b c d : Nat) (h : IsDottedQuad s a b c d) :
    ipToInt s = a * 2 ^ 24 + b * 2 ^ 16 + c * 2 ^ 8 + d ∧
    intToIP (ipToInt s) = s ∧
    parseIPv4Fields s.data = some [a, b, c, d] := by
  have hparse := (isDottedQuad_iff_parse s a b c d).1 h
  obtain ⟨ha, hb, hc, hd, hs⟩ := h
  have hstr : s = String.mk (string4 [a, b, c, d]) := by
    rw [← hs]
  have hval : ipToInt s = packOctets a b c d := by
    rw [hstr]; exact ipToInt_string4 a b c d ha hb hc hd
  refine ⟨hval, ?_, hparse⟩
  rw [hval, intToIP, unpack_pack a b c d ha hb hc hd, ipString_four, ← hstr]

/-- C9 at "192.168.1.10". -/
theorem ipToInt_round_trip_witness :
    IsDottedQuad "192.168.1.10" 192 168 1 10 ∧
    ipToInt "192.168.1.10" = 3232235786 ∧ intToIP 3232235786 = "192.168.1.10" := by
  have hq : IsDottedQuad "192.168.1.10" 192 168 1 10 :=
    ⟨by decide, by decide, by decide, by decide, by decide⟩
  have h := ipToInt_round_trip "192.168.1.10" 192 168 1 10 hq
  refine ⟨hq, h.1, ?_⟩
  have e := h.2.1
  rw [h.1] at e
  exact e

/-- C10 as amended: `ipToInt` returns 0 for every string that does not split
into exactly four components at its dots, so that in the output of `scanIPs`
every entry before such an entry has the value 0 as well.  A string with four
components is not checked further: the result is the disjunction of the four
contributions shifted to their places, where a component that is empty or
starts with a character that is neither a decimal digit nor white space
contributes 0, and a component that starts with a run of decimal digits
contributes the value of that run (0 when it is `2 ^ 32` or more), whatever
follows the digits. -/
theorem ipToInt_malformed (s : String) :
    ((stringsSplit '.' s.data).length ≠ 4 →
      ipToInt s = 0 ∧
      ∀ (S : SliceSorter ScanResult) (pingIP : String → Bool) (ips : List String)
        (pre post : List ScanResult) (alive : Bool),
        scanIPs S pingIP ips = pre ++ ScanResult.mk s alive :: post →
        ∀ q ∈ pre, ipToInt q.IP = 0) ∧
    (∀ p0 p1 p2 p3, stringsSplit '.' s.data = [p0, p1, p2, p3] →
      ipToInt s = (octetOf p0 <<< 24) % 2 ^ 32 ||| (octetOf p1 <<< 16) % 2 ^ 32 |||
        (octetOf p2 <<< 8) % 2 ^ 32 ||| octetOf p3 % 2 ^ 32) ∧
    (∀ p : List Char,
      (p = [] ∨ ∃ c rest, p = c :: rest ∧ isDecimalDigit c = false ∧ isSpace c = false) →
      octetOf p = 0) ∧
    (∀ ds rest : List Char, ds ≠ [] → (∀ c ∈ ds, isDecimalDigit c = true) →
      (rest = [] ∨ ∃ c r, rest = c :: r ∧ isDecimalDigit c = false) →
      octetOf (ds ++ rest) = if parseUint ds < 2 ^ 32 then parseUint ds else 0) := by
  refine ⟨?_, ?_, ?_, ?_⟩
  · intro h
    have h0 : ipToInt s = 0 := by simp [ipToInt, h]
    refine ⟨h0, ?_⟩
    intro S pingIP ips pre post alive heq q hq
    have hsorted := scanIPs_sorted S pingIP ips
    rw [heq, List.pairwise_append] at hsorted
    have := hsorted.2.2 q hq (ScanResult.mk s alive) (List.mem_cons_self _ _)
    simp only [h0] at this
    omega
  · intro p0 p1 p2 p3 hsplit
    simp [ipToInt, hsplit, ipToIntLoop, ipToIntStep, octetOf]
  · intro p hp
    simp [octetOf, sscanf_no_digit p hp]
  · intro ds rest hne hds hrest
    rw [octetOf, sscanf_leading_digits ds rest hne hds hrest]
    split_ifs <;> rfl

/-- C10 as amended, on "1.2.3" (three components, value 0, sorted before
"10.0.0.1"), on "1.2.3.x" (the last component contributes 0) and on
"1x.2x.3x.4x" (each component contributes its leading digit). -/
theorem ipToInt_malformed_witness :
    ipToInt "1.2.3" = 0 ∧
    (∀ (S : SliceSorter ScanResult) (pingIP : String → Bool),
      scanIPs S pingIP ["10.0.0.1", "1.2.3"] =
        [⟨"1.2.3", pingIP "1.2.3"⟩, ⟨"10.0.0.1", pingIP "10.0.0.1"⟩]) ∧
    octetOf ['x'] = 0 ∧ octetOf ['4', 'x'] = 4 ∧
    ipToInt "1.2.3.x" = 1 * 2 ^ 24 + 2 * 2 ^ 16 + 3 * 2 ^ 8 ∧
    ipToInt "1x.2x.3x.4x" = 1 * 2 ^ 24 + 2 * 2 ^ 16 + 3 * 2 ^ 8 + 4 := by
  refine ⟨((ipToInt_malformed "1.2.3").1 (by decide)).1, ?_, ?_, ?_, ?_, ?_⟩
  · intro S pingIP
    have z1 : ipToInt "1.2.3" = 0 := by decide
    have z2 : ipToInt "10.0.0.1" = 167772161 := by decide
    unfold scanIPs
    rw [S.short _ _ (by simp)]
    simp [insertionSortFunc, insertLeft, z1, z2]
  · exact (ipToInt_malformed "").2.2.1 ['x'] (Or.inr ⟨'x', [], rfl, by decide, by decide⟩)
  · exact ((ipToInt_malformed "").2.2.2 ['4'] ['x'] (by decide) (by decide)
      (Or.inr ⟨'x', [], rfl, by decide⟩)).trans (by decide)
  · exact ((ipToInt_malformed "1.2.3.x").2.1 ['1'] ['2'] ['3'] ['x'] (by decide)).trans
      (by decide)
  · exact ((ipToInt_malformed "1x.2x.3x.4x").2.1 ['1', 'x'] ['2', 'x'] ['3', 'x'] ['4', 'x']
      (by decide)).trans (by decide)

/-- C10 as stated fails: "1.2.3.x" has four components of which the last is
not a number, and "1x.2x.3x.4x" has four components none of which is a number;
`ipToInt` returns 0 for neither. -/
theorem ipToInt_malformed_not_zero :
    stringsSplit '.' "1.2.3.x".data = ["1".data, "2".data, "3".data, "x".data] ∧
    sscanfUint32 "x".data = none ∧
    ipToInt "1.2.3.x" = 16909056 ∧ ipToInt "1.2.3.x" ≠ 0 ∧
    ipToInt "1x.2x.3x.4x" = 16909060 ∧ ipToInt "1x.2x.3x.4x" ≠ 0 := by
  decide

end SubnetScanner
